import Mathlib

/-!
Verification development for the new-rawr pagination and comment-tree engine.

The repository sources provided contain the callers of the engine
(`structures/submission.rs`, `structures/user.rs`) and response structs;
the engine itself (listing iterator, comment tree builder, comment stream,
error type) is specified by the natural-language spec and is modelled here
from the spec's words.  Code that is present in the sources
(`Submission` mutators, `Commentable::replies`, `UserAbout::new`) is
embedded directly from the source.
-/

namespace NewRawr

namespace Listing

/-- Modelled from the spec: the `Cursor` of §3 (the listing-iterator source
file `structures/listing.rs` is not among the provided sources, only its
callers are).  It tracks the pagination position: the opaque `after` token
returned by the last fetched page, and an exhaustion flag. -/
structure Cursor where
  after : Option String
  exhausted : Bool
deriving DecidableEq, Repr

/-- Modelled from the spec: `ListingPage` of §3 — an ordered sequence of
items plus the `after` token returned with the page. -/
structure ListingPage (T : Type) where
  items : List T
  after : Option String
deriving DecidableEq, Repr

/-- Modelled from the spec: the state of the Listing Iterator of §4.1 — the
in-memory buffer holding the not-yet-consumed items of the current page,
plus the Cursor it exclusively owns. -/
structure IterState (T : Type) where
  buffer : List T
  cursor : Cursor
deriving DecidableEq, Repr

/-- Outcome of one `next()` call: an item, end-of-sequence, or a typed
transport/decode error.  End-of-sequence and failure are distinct
constructors, never conflated. -/
inductive NextResult (T E : Type) where
  | item : T → NextResult T E
  | done : NextResult T E
  | err : E → NextResult T E
deriving DecidableEq, Repr

/-- Modelled from the spec: `next()` of §4.1.  If the buffer is non-empty,
pop and return the head.  If the buffer is empty and the cursor is not
exhausted, fetch a page with the current `after` token; on a transport or
decode error return the typed error and leave the state untouched; on
success replace the buffer with the page's items, update the cursor from
the page's `after` token (exhausted when the page has zero items or no
`after` token), and serve from the new buffer.  If the buffer is empty and
the cursor is exhausted, the sequence is finished and no fetch is made.
The third component counts the transport fetches performed by this call
(0 or 1). -/
def next (fetch : Option String → Except E (ListingPage T)) (s : IterState T) :
    NextResult T E × IterState T × Nat :=
  match s.buffer with
  | x :: rest => (.item x, ⟨rest, s.cursor⟩, 0)
  | [] =>
    if s.cursor.exhausted then (.done, s, 0)
    else
      match fetch s.cursor.after with
      | .error e => (.err e, s, 1)
      | .ok page =>
        let c : Cursor := ⟨page.after, page.items.isEmpty || page.after.isNone⟩
        match page.items with
        | [] => (.done, ⟨[], c⟩, 1)
        | x :: rest => (.item x, ⟨rest, c⟩, 1)

/-- Drive `next` for at most `fuel` calls, collecting yielded items.
Returns the yielded items, the final state, the total number of transport
fetches performed, and whether end-of-sequence was signalled. -/
def drain (fetch : Option String → Except E (ListingPage T)) :
    Nat → IterState T → List T × IterState T × Nat × Bool
  | 0, s => ([], s, 0, false)
  | fuel + 1, s =>
    match next fetch s with
    | (.item x, s1, k) =>
      let r := drain fetch fuel s1
      (x :: r.1, r.2.1, k + r.2.2.1, r.2.2.2)
    | (.done, s1, k) => ([], s1, k, true)
    | (.err _, s1, k) => ([], s1, k, false)

/-- A finite well-formed page sequence as served by the transport: each
page is reachable from the previous page's `after` token, every page has
non-empty items, and the final page returns no `after` token. -/
inductive ValidChain (fetch : Option String → Except E (ListingPage T)) :
    Option String → List (ListingPage T) → Prop where
  | last (tok : Option String) (p : ListingPage T) :
      fetch tok = .ok p → p.items ≠ [] → p.after = none →
      ValidChain fetch tok [p]
  | chain (tok : Option String) (p : ListingPage T) (t : String)
      (ps : List (ListingPage T)) :
      fetch tok = .ok p → p.items ≠ [] → p.after = some t →
      ValidChain fetch (some t) ps → ValidChain fetch tok (p :: ps)

/-- The concatenation of all pages' items, in order. -/
def pagesItems (ps : List (ListingPage T)) : List T :=
  (ps.map ListingPage.items).flatten

/-- Concrete transport for the spec's example scenario: page 1 returns
`[c1, c2]` with `after = "t2"`; page 2 returns `[c3]` with no `after`. -/
def exFetch : Option String → Except Unit (ListingPage String) :=
  fun tok =>
    match tok with
    | none => .ok ⟨["c1", "c2"], some "t2"⟩
    | some t => if t = "t2" then .ok ⟨["c3"], none⟩ else .error ()

end Listing

namespace Stream

variable {α : Type} [DecidableEq α]

/-- Modelled from the spec: one poll cycle's dedup filter of §4.3 (the
comment-stream source file `structures/comment_list.rs` is not among the
provided sources; only its constructor call in `Submission::reply_stream`
is).  `obs` is the thread's current comment listing flattened in document
order; for each fullname in order, if it is not in the SeenSet it is
emitted to the consumer and added to the SeenSet at that moment, otherwise
it is skipped.  Returns the emitted sequence and the updated SeenSet. -/
def cycleEmit (seen : List α) : List α → List α × List α
  | [] => ([], seen)
  | c :: rest =>
    if c ∈ seen then cycleEmit seen rest
    else
      let r := cycleEmit (seen ++ [c]) rest
      (c :: r.1, r.2)

/-- Modelled from the spec: the poll loop of §4.3.  Each cycle either
observes the flattened listing (`Except.ok obs`) or fails with a typed
transport/decode error (`Except.error e`).  A failed cycle surfaces the
error to the consumer, leaves the SeenSet untouched, and the stream
continues with the following cycle.  Returns the per-cycle consumer events
and the final SeenSet. -/
def runCycles (E : Type) (seen : List α) :
    List (Except E (List α)) → List (Except E (List α)) × List α
  | [] => ([], seen)
  | .error e :: rest =>
    let r := runCycles E seen rest
    (.error e :: r.1, r.2)
  | .ok obs :: rest =>
    let c := cycleEmit seen obs
    let r := runCycles E c.2 rest
    (.ok c.1 :: r.1, r.2)

/-- The items emitted across all cycles, concatenated in order. -/
def emittedAll (E : Type) (seen : List α) (cs : List (Except E (List α))) :
    List α :=
  ((runCycles E seen cs).1.map fun ev =>
    match ev with
    | .ok l => l
    | .error _ => []).flatten

/-- The thread's comment set only grows: each successive observation
contains every fullname of the previous one. -/
def obsGrows : List (List α) → Prop
  | [] => True
  | [_] => True
  | a :: b :: rest => a ⊆ b ∧ obsGrows (b :: rest)

instance obsGrowsDecidable : ∀ l : List (List α), Decidable (obsGrows l)
  | [] => isTrue trivial
  | [_] => isTrue trivial
  | a :: b :: rest =>
    match obsGrowsDecidable (b :: rest) with
    | isTrue h =>
      if hs : a ⊆ b then isTrue ⟨hs, h⟩ else isFalse (fun hc => hs hc.1)
    | isFalse h => isFalse (fun hc => h hc.2)

end Stream

namespace Api

/-- Modelled from the spec: the typed error of the transport boundary
(§6–§7; `errors.rs` is not among the provided sources).  Carries network
failure, non-success status, and the needs-reauthentication case. -/
inductive APIError where
  | network
  | status (code : Nat)
  | needsReauth
deriving DecidableEq, Repr

/-- Modelled from the spec: the typed decode error of §6, distinguishing
malformed JSON from a well-formed document missing a required field. -/
inductive DecodeError where
  | malformedJson
  | missingField (f : String)
deriving DecidableEq, Repr

/-- Result of running a Rust function that may abort the process: either
it returns a value, or it aborts via a failed `.unwrap()`. -/
inductive RsResult (A : Type) where
  | ok (a : A)
  | crashed
deriving DecidableEq, Repr

/-- Abstract decoded shape of the `/comments/{id}` response used by
`Commentable::replies` (the concrete `CommentResponse` struct lives in
`responses/listing.rs`, not among the provided sources; only the
`children` field consumed at `submission.rs:169` is modelled). -/
structure CommentResponse where
  children : List String
deriving DecidableEq, Repr

/-- The `CommentList` value constructed by `Commentable::replies`
(`submission.rs:166`): client-less payload of
`CommentList::new(client, name, name, children)`. -/
structure CommentList where
  parent : String
  link : String
  children : List String
deriving DecidableEq, Repr

/-- Embedded from `Commentable::replies` for `Submission`
(`submission.rs:160-171`): builds the URL, calls
`self.client.get_json(&url, false).unwrap()`, then
`serde_json::from_str(&*result).unwrap()`, then returns
`Ok(CommentList::new(...))`.  The two `.unwrap()` calls abort on a
transport or decode failure, so those failures never reach the declared
`Result<CommentList, APIError>` channel. -/
def replies (name id : String)
    (get_json : String → Except APIError String)
    (decodeCR : String → Except DecodeError CommentResponse) :
    RsResult (Except APIError CommentList) :=
  match get_json ("/comments/" ++ id) with
  | .error _ => .crashed
  | .ok s =>
    match decodeCR s with
    | .error _ => .crashed
    | .ok r => .ok (.ok ⟨name, name, r.children⟩)

/-- Decoded shape of `/user/{name}/about` (`responses/user.rs`),
restricted to the fields read by `UserAbout`. -/
structure UserAboutData where
  name : String
  id : String
  link_karma : Int
  comment_karma : Int
deriving DecidableEq, Repr

/-- Embedded from `UserAbout::new` (`user.rs:101-108`): builds the URL,
calls `client.get_json(&url, false).unwrap()`, then
`serde_json::from_str(&*result).unwrap()`, then returns `Ok(UserAbout)`.
As in `replies`, both failure kinds abort instead of becoming the
declared `Result<UserAbout, APIError>` error. -/
def userAboutNew (name : String)
    (get_json : String → Except APIError String)
    (decodeUA : String → Except DecodeError UserAboutData) :
    RsResult (Except APIError UserAboutData) :=
  match get_json ("/user/" ++ name ++ "/about?raw_json=1") with
  | .error _ => .crashed
  | .ok s =>
    match decodeUA s with
    | .error _ => .crashed
    | .ok r => .ok (.ok r)

/-- The fields of `listing::SubmissionData` cached by a `Submission` that
its mutating methods touch (`submission.rs`). -/
structure SubmissionData where
  name : String
  selftext : String
  over_18 : Bool
  stickied : Bool
  locked : Bool
  hidden : Bool
  distinguished : Option String
deriving DecidableEq, Repr

/-- Embedded from `Editable::edit` (`submission.rs:70-80`): POST to
`/api/editusertext`; on `Ok` update the cached `selftext`; always return
the POST result.  The POST outcome is passed in as the transport's
response. -/
def edit (d : SubmissionData) (text : String)
    (res : Except APIError Unit) : Except APIError Unit × SubmissionData :=
  match res with
  | .ok _ => (res, { d with selftext := text })
  | .error _ => (res, d)

/-- Embedded from `Submission::mark_nsfw` (`submission.rs:222-231`). -/
def mark_nsfw (d : SubmissionData) (res : Except APIError Unit) :
    Except APIError Unit × SubmissionData :=
  match res with
  | .ok _ => (res, { d with over_18 := true })
  | .error _ => (res, d)

/-- Embedded from `Submission::unmark_nsfw` (`submission.rs:234-243`). -/
def unmark_nsfw (d : SubmissionData) (res : Except APIError Unit) :
    Except APIError Unit × SubmissionData :=
  match res with
  | .ok _ => (res, { d with over_18 := false })
  | .error _ => (res, d)

/-- Embedded from `Stickable::stick` (`submission.rs:257-266`). -/
def stick (d : SubmissionData) (res : Except APIError Unit) :
    Except APIError Unit × SubmissionData :=
  match res with
  | .ok _ => (res, { d with stickied := true })
  | .error _ => (res, d)

/-- Embedded from `Stickable::unstick` (`submission.rs:268-277`). -/
def unstick (d : SubmissionData) (res : Except APIError Unit) :
    Except APIError Unit × SubmissionData :=
  match res with
  | .ok _ => (res, { d with stickied := false })
  | .error _ => (res, d)

/-- Embedded from `Lockable::lock` (`submission.rs:285-294`). -/
def lock (d : SubmissionData) (res : Except APIError Unit) :
    Except APIError Unit × SubmissionData :=
  match res with
  | .ok _ => (res, { d with locked := true })
  | .error _ => (res, d)

/-- Embedded from `Lockable::unlock` (`submission.rs:296-305`). -/
def unlock (d : SubmissionData) (res : Except APIError Unit) :
    Except APIError Unit × SubmissionData :=
  match res with
  | .ok _ => (res, { d with locked := false })
  | .error _ => (res, d)

/-- Embedded from `Visible::hide` (`submission.rs:377-386`). -/
def hide (d : SubmissionData) (res : Except APIError Unit) :
    Except APIError Unit × SubmissionData :=
  match res with
  | .ok _ => (res, { d with hidden := true })
  | .error _ => (res, d)

/-- Embedded from `Visible::show` (`submission.rs:388-397`). -/
def show' (d : SubmissionData) (res : Except APIError Unit) :
    Except APIError Unit × SubmissionData :=
  match res with
  | .ok _ => (res, { d with hidden := false })
  | .error _ => (res, d)

/-- Embedded from `Distinguishable::distinguish`
(`submission.rs:326-333`): on success the cached `distinguished` becomes
`Some("moderator")`. -/
def distinguish (d : SubmissionData) (res : Except APIError Unit) :
    Except APIError Unit × SubmissionData :=
  match res with
  | .ok _ => (res, { d with distinguished := some "moderator" })
  | .error _ => (res, d)

/-- Embedded from `Distinguishable::undistinguish`
(`submission.rs:335-342`). -/
def undistinguish (d : SubmissionData) (res : Except APIError Unit) :
    Except APIError Unit × SubmissionData :=
  match res with
  | .ok _ => (res, { d with distinguished := none })
  | .error _ => (res, d)

end Api

namespace Tree

/-- Modelled from the spec: a decoded flat listing item of §3/§4.2 (the
comment-tree builder source `structures/comment_list.rs` /
`structures/comment.rs` is not among the provided sources) — either a
comment (fullname, parent fullname or root sentinel, body) or a
MoreComments continuation stub (parent, not-yet-fetched child fullnames,
declared count).  The optional pre-expanded inline `replies` sub-listing
of §4.2 is not modelled; all claims below quantify over flat inputs. -/
inductive FlatItem where
  | comment (id parent body : String)
  | more (parent : String) (childIds : List String) (count : Nat)
deriving DecidableEq, Repr

def FlatItem.parentOf : FlatItem → String
  | .comment _ p _ => p
  | .more p _ _ => p

/-- Modelled from the spec: an arena node of the comment tree (§9 directs
the tree to be an arena of nodes addressed by stable keys, with
parent/child relationships stored as key references).  A comment node
carries its ordered child references; a MoreComments node is a leaf. -/
inductive BNode where
  | comment (id parent body : String) (children : List Nat)
  | more (parent : String) (childIds : List String) (count : Nat)
deriving DecidableEq, Repr

def BNode.childrenOf : BNode → List Nat
  | .comment _ _ _ cs => cs
  | .more _ _ _ => []

def BNode.addChild : BNode → Nat → BNode
  | .comment i p b cs, n => .comment i p b (cs ++ [n])
  | nd, _ => nd

/-- The comment fullname of a node, when it has one (stubs have none and
can never be the parent of a later item). -/
def idOf : BNode → Option String
  | .comment i _ _ _ => some i
  | .more _ _ _ => none

/-- Forget a node's children, recovering the flat item it was built
from. -/
def flatOf : BNode → FlatItem
  | .comment i p b _ => .comment i p b
  | .more p c n => .more p c n

/-- The childless arena node allocated for a flat item. -/
def nodeOf : FlatItem → BNode
  | .comment i p b => .comment i p b []
  | .more p c n => .more p c n

/-- Modelled from the spec: the root-anchored CommentTree of §3 — the
arena plus the ordered references of the synthetic root's children. -/
structure CommentTree where
  arena : List BNode
  rootChildren : List Nat
deriving DecidableEq, Repr

/-- Modelled from the spec: the builder state of §4.2 — the arena under
construction, the synthetic root's child references, the
fullname-to-node mapping populated as nodes are created, and the pending
list of items whose parent was not yet resolvable. -/
structure BuildState where
  arena : List BNode
  rootChildren : List Nat
  index : List (String × Nat)
  pending : List FlatItem
deriving DecidableEq, Repr

/-- First match in the fullname-to-node mapping. -/
def lookupId : List (String × Nat) → String → Option Nat
  | [], _ => none
  | (s, i) :: rest, k => if s = k then some i else lookupId rest k

/-- Allocate a node for `it` and append its reference to the children of
the already-constructed node `j`. -/
def attachNew (st : BuildState) (j : Nat) (it : FlatItem) : BuildState :=
  let n := st.arena.length
  let withNode := st.arena ++ [nodeOf it]
  { st with
    arena :=
      match withNode[j]? with
      | some nd => withNode.set j (nd.addChild n)
      | none => withNode,
    index :=
      match it with
      | .comment i _ _ => st.index ++ [(i, n)]
      | .more _ _ _ => st.index }

/-- Modelled from the spec: one step of the §4.2 walk.  An item whose
parent is the root sentinel becomes a new last child of the synthetic
root; otherwise the parent fullname is resolved through the mapping and
the node is appended as its last child; if the parent is not yet in the
mapping the item is held in the pending list. -/
def step (root : String) (st : BuildState) (it : FlatItem) : BuildState :=
  if it.parentOf = root then
    let n := st.arena.length
    { st with
      arena := st.arena ++ [nodeOf it],
      rootChildren := st.rootChildren ++ [n],
      index :=
        match it with
        | .comment i _ _ => st.index ++ [(i, n)]
        | .more _ _ _ => st.index }
  else
    match lookupId st.index it.parentOf with
    | some j => attachNew st j it
    | none => { st with pending := st.pending ++ [it] }

def runPass (root : String) (st : BuildState) (items : List FlatItem) :
    BuildState :=
  items.foldl (step root) st

/-- Modelled from the spec: the typed structural error of §7 — an
unresolved parent after the retry pass. -/
inductive StructuralError where
  | unresolvedParent (its : List FlatItem)
deriving DecidableEq, Repr

/-- Modelled from the spec: `build` of §4.2 — walk the items once in
order, then re-attempt the pending items after the full pass; items still
unresolved after that are a typed structural error, never silently
dropped. -/
def build (root : String) (items : List FlatItem) :
    Except StructuralError CommentTree :=
  let st1 := runPass root ⟨[], [], [], []⟩ items
  let st2 := runPass root { st1 with pending := [] } st1.pending
  if st2.pending = [] then .ok ⟨st2.arena, st2.rootChildren⟩
  else .error (.unresolvedParent st2.pending)

/-- Depth-first, parent-before-children, sibling-order-preserving
traversal of an arena from a reference list, fuelled to keep it total on
arbitrary arenas; one unit of fuel is consumed per descent into a child
list, so `arena.length + 1` exceeds the depth of any arena built by
`build`. -/
def dfsL (A : List BNode) : Nat → List Nat → List FlatItem
  | 0, _ => []
  | fuel + 1, l =>
    l.foldr
      (fun i acc =>
        (match A[i]? with
         | some nd => flatOf nd :: dfsL A fuel nd.childrenOf
         | none => []) ++ acc)
      []

/-- The arena references consulted by `dfsL` on the same run. -/
def visitedL (A : List BNode) : Nat → List Nat → List Nat
  | 0, _ => []
  | fuel + 1, l =>
    l.foldr
      (fun i acc =>
        (i :: (match A[i]? with
         | some nd => visitedL A fuel nd.childrenOf
         | none => [])) ++ acc)
      []

/-- The depth-first document-order traversal of a built tree. -/
def traverse (t : CommentTree) : List FlatItem :=
  dfsL t.arena (t.arena.length + 1) t.rootChildren

/-- The comment fullnames of a flat input, in order. -/
def commentIds (items : List FlatItem) : List String :=
  items.filterMap fun it =>
    match it with
    | .comment i _ _ => some i
    | .more _ _ _ => none

/-- The hypothesis exactly as claim C2 states it: every child item
appears after its parent — each item's parent is the root sentinel or the
fullname of a comment appearing strictly earlier in the input. -/
def childFollowsParentAux (root : String) :
    List String → List FlatItem → Bool
  | _, [] => true
  | seenIds, it :: rest =>
    (it.parentOf == root || seenIds.contains it.parentOf) &&
    childFollowsParentAux root
      (seenIds ++ (match it with
        | .comment i _ _ => [i]
        | .more _ _ _ => []))
      rest

def childFollowsParent (root : String) (items : List FlatItem) : Bool :=
  childFollowsParentAux root [] items

/-- Modelled from the spec: `expand` of §4.2 — fetch exactly the stub's
recorded child fullnames and re-run tree construction on the fetched flat
items (the caller splices the result at the stub's original sibling
position).  `fetched` is the decoded flat listing returned by the
expansion fetch. -/
def expandMore (node : BNode) (fetched : List FlatItem) :
    Except StructuralError CommentTree :=
  match node with
  | .more parent _ _ => build parent fetched
  | .comment i _ _ _ => build i fetched

/-- Pop names from a stack until the sought name is on top. -/
def dropTo (p : String) : List String → Option (List String)
  | [] => none
  | x :: xs => if x = p then some (x :: xs) else dropTo p xs

/-- One step of the rightmost-path stack discipline: the item's parent
must be on the stack (everything above it is popped), and a comment opens
a new stack entry while a stub, being a leaf, does not. -/
def stackStep (stk : List String) (it : FlatItem) : Option (List String) :=
  match dropTo it.parentOf stk with
  | none => none
  | some stk2 =>
    match it with
    | .comment i _ _ => some (i :: stk2)
    | .more _ _ _ => some stk2

/-- Run the stack discipline over a flat input.  `stackRun [root] items`
succeeds exactly when the input is a depth-first linearization of a
forest: every item's parent is on the rightmost path of the
already-delivered part of the tree when the item arrives. -/
def stackRun : List String → List FlatItem → Option (List String)
  | stk, [] => some stk
  | stk, it :: rest =>
    match stackStep stk it with
    | none => none
    | some stk2 => stackRun stk2 rest

/-- All children strictly follow their parent in the arena's allocation
order and stay in bounds — true of every arena `build` constructs. -/
def GB (A : List BNode) : Prop :=
  ∀ i nd, A[i]? = some nd → ∀ c ∈ nd.childrenOf, i < c ∧ c < A.length

/-- `O` is the fuelled depth-first output of the reference list `C` in
arena `A`, stable for every fuel of at least `A.length`, with all
consulted references strictly below `ub`. -/
def segOk (A : List BNode) (C : List Nat) (ub : Nat) (O : List FlatItem) :
    Prop :=
  ∀ fuel, A.length ≤ fuel →
    dfsL A fuel C = O ∧ ∀ v ∈ visitedL A fuel C, v < ub

/-- A frame of the rightmost path during construction: the comment's
fullname, its arena reference, and the depth-first output of its closed
(no longer extendable) children. -/
structure Frame where
  name : String
  idx : Nat
  closed : List FlatItem

/-- The rightmost-path decomposition of a partially built tree, frames
listed deepest first.  `above` is the arena reference of the open child
of the current frame (none for the deepest frame), `acc` the depth-first
output of that child's subtree.  At the root level the total output `P`
decomposes into the closed root-level output followed by the open spine
subtree. -/
def frChain (A : List BNode) (R : List Nat) (P : List FlatItem) :
    Option Nat → List FlatItem → List Frame → Prop
  | above, acc, [] =>
    match above with
    | none => segOk A R A.length P
    | some s => ∃ R0 O0, R = R0 ++ [s] ∧ segOk A R0 s O0 ∧ P = O0 ++ acc
  | above, acc, fr :: rest =>
    ∃ nd, A[fr.idx]? = some nd ∧ idOf nd = some fr.name ∧
      (match above with
       | none => segOk A nd.childrenOf A.length fr.closed
       | some c => ∃ C, nd.childrenOf = C ++ [c] ∧ fr.idx < c ∧
           segOk A C c fr.closed) ∧
      frChain A R P (some fr.idx) (flatOf nd :: (fr.closed ++ acc)) rest

/-- The key list of the fullname-to-node mapping. -/
def keysOf (st : BuildState) : List String := st.index.map Prod.fst

/-- The full construction invariant: no pending items, child references
ascend, root references are in bounds, the rightmost-path decomposition
holds with total output `P`, and the mapping is sound (every entry names
its node), complete (every comment node has its entry), and has
duplicate-free keys not containing the root sentinel. -/
def Inv (root : String) (st : BuildState) (frames : List Frame)
    (P : List FlatItem) : Prop :=
  st.pending = [] ∧ GB st.arena ∧
  (∀ r ∈ st.rootChildren, r < st.arena.length) ∧
  frChain st.arena st.rootChildren P none [] frames ∧
  (∀ pr ∈ st.index, ∃ nd, st.arena[pr.2]? = some nd ∧ idOf nd = some pr.1) ∧
  (∀ i nd s, st.arena[i]? = some nd → idOf nd = some s → (s, i) ∈ st.index) ∧
  (keysOf st).Nodup ∧ root ∉ keysOf st

end Tree

namespace Listing

theorem drain_succ_item (fetch : Option String → Except E (ListingPage T))
    (fuel : Nat) (s s1 : IterState T) (x : T) (k : Nat)
    (h : next fetch s = (.item x, s1, k)) :
    drain fetch (fuel + 1) s =
      (x :: (drain fetch fuel s1).1, (drain fetch fuel s1).2.1,
        k + (drain fetch fuel s1).2.2.1, (drain fetch fuel s1).2.2.2) := by
  simp [drain, h]

theorem drain_succ_done (fetch : Option String → Except E (ListingPage T))
    (fuel : Nat) (s s1 : IterState T) (k : Nat)
    (h : next fetch s = (.done, s1, k)) :
    drain fetch (fuel + 1) s = ([], s1, k, true) := by
  simp [drain, h]

theorem drain_buffer (fetch : Option String → Except E (ListingPage T))
    (b : List T) (c : Cursor) (fuel : Nat) :
    drain fetch (b.length + fuel) ⟨b, c⟩ =
      ((b ++ (drain fetch fuel ⟨[], c⟩).1, (drain fetch fuel ⟨[], c⟩).2)) := by
  induction b with
  | nil => simp
  | cons x rest ih =>
    have hlen : (x :: rest).length + fuel = (rest.length + fuel) + 1 := by
      simp [List.length_cons]; omega
    rw [hlen]
    rw [drain_succ_item fetch _ _ ⟨rest, c⟩ x 0 (by simp [next])]
    rw [ih]
    simp

theorem drain_chain (fetch : Option String → Except E (ListingPage T)) :
    ∀ (ps : List (ListingPage T)) (tok : Option String),
    ValidChain fetch tok ps →
    drain fetch ((pagesItems ps).length + 1) ⟨[], ⟨tok, false⟩⟩ =
      (pagesItems ps, ⟨[], ⟨none, true⟩⟩, ps.length, true) := by
  intro ps tok h
  induction h with
  | last tok p hf hne hafter =>
    obtain ⟨x, rest, hitems⟩ : ∃ x rest, p.items = x :: rest := by
      cases hi : p.items with
      | nil => exact absurd hi hne
      | cons a l => exact ⟨a, l, rfl⟩
    have hnext : next fetch ⟨[], ⟨tok, false⟩⟩
        = (.item x, ⟨rest, ⟨none, true⟩⟩, 1) := by
      simp [next, hf, hitems, hafter]
    have hitems1 : pagesItems [p] = x :: rest := by
      simp [pagesItems, hitems]
    rw [hitems1]
    have hlen : (x :: rest).length + 1 = (rest.length + 1) + 1 := by
      simp
    rw [hlen]
    rw [drain_succ_item fetch _ _ _ _ _ hnext]
    rw [drain_buffer fetch rest (⟨none, true⟩ : Cursor) 1]
    have hdone : drain fetch 1 (⟨[], ⟨none, true⟩⟩ : IterState T)
        = ([], ⟨[], ⟨none, true⟩⟩, 0, true) := by
      exact drain_succ_done fetch 0 _ _ 0 (by simp [next])
    rw [hdone]
    simp
  | chain tok p t ps hf hne hafter _hch ih =>
    obtain ⟨x, rest, hitems⟩ : ∃ x rest, p.items = x :: rest := by
      cases hi : p.items with
      | nil => exact absurd hi hne
      | cons a l => exact ⟨a, l, rfl⟩
    have hnext : next fetch ⟨[], ⟨tok, false⟩⟩
        = (.item x, ⟨rest, ⟨some t, false⟩⟩, 1) := by
      simp [next, hf, hitems, hafter]
    have hsplit : pagesItems (p :: ps) = (x :: rest) ++ pagesItems ps := by
      simp [pagesItems, hitems]
    rw [hsplit]
    have hlen : ((x :: rest) ++ pagesItems ps).length + 1
        = (rest.length + ((pagesItems ps).length + 1)) + 1 := by
      simp; omega
    rw [hlen]
    rw [drain_succ_item fetch _ _ _ _ _ hnext]
    rw [drain_buffer fetch rest (⟨some t, false⟩ : Cursor)
      ((pagesItems ps).length + 1)]
    rw [ih]
    simp
    omega

/-- Claim C1: for every finite sequence of pages, each with non-empty
items, reachable in order from the empty cursor, with the final page
returning no `after` token, successive `next()` calls yield exactly the
concatenation of all pages' items in order (making exactly one fetch per
page), then signal end-of-sequence; the end state is a fixed point of
`next` that signals end-of-sequence with zero further fetches, so every
subsequent call signals end-of-sequence again without any transport
fetch. -/
theorem c1_pagination_termination
    {T E : Type} (fetch : Option String → Except E (ListingPage T))
    (ps : List (ListingPage T)) (h : ValidChain fetch none ps) :
    drain fetch ((pagesItems ps).length + 1) ⟨[], ⟨none, false⟩⟩
      = (pagesItems ps, ⟨[], ⟨none, true⟩⟩, ps.length, true)
    ∧ next fetch ⟨[], ⟨none, true⟩⟩ = (.done, ⟨[], ⟨none, true⟩⟩, 0)
    ∧ ∀ k, drain fetch (k + 1) ⟨[], ⟨none, true⟩⟩
      = ([], ⟨[], ⟨none, true⟩⟩, 0, true) := by
  refine ⟨drain_chain fetch ps none h, rfl, ?_⟩
  intro k
  simp [drain, next]

/-- Witness for C1 at the spec's example scenario: the iterator yields
`c1, c2, c3` with two fetches, then signals end-of-sequence forever. -/
theorem c1_pagination_termination_witness :
    drain exFetch 4 ⟨[], ⟨none, false⟩⟩
      = (["c1", "c2", "c3"], ⟨[], ⟨none, true⟩⟩, 2, true)
    ∧ next exFetch ⟨[], ⟨none, true⟩⟩ = (.done, ⟨[], ⟨none, true⟩⟩, 0) := by
  have hch : ValidChain exFetch none
      [⟨["c1", "c2"], some "t2"⟩, ⟨["c3"], none⟩] := by
    refine ValidChain.chain none _ "t2" _ rfl (by decide) rfl ?_
    exact ValidChain.last (some "t2") _ rfl (by decide) rfl
  have h := c1_pagination_termination exFetch _ hch
  exact ⟨h.1, h.2.1⟩

/-- Claim C6: when the buffer is empty, the cursor is not exhausted, and
the page fetch fails, `next()` returns the failure as a typed error and
leaves the iterator state exactly as it was before the fetch (in
particular the cursor is not marked exhausted); consequently a subsequent
call runs from the identical pre-fetch state and re-attempts the fetch of
the same page. -/
theorem c6_error_preserves_cursor
    {T E : Type} (fetch : Option String → Except E (ListingPage T))
    (s : IterState T) (e : E)
    (hb : s.buffer = []) (hx : s.cursor.exhausted = false)
    (hf : fetch s.cursor.after = .error e) :
    next fetch s = (.err e, s, 1)
    ∧ ∀ fetch2 : Option String → Except E (ListingPage T),
        next fetch2 (next fetch s).2.1 = next fetch2 s := by
  have h1 : next fetch s = (.err e, s, 1) := by
    obtain ⟨buf, cur⟩ := s
    obtain ⟨aft, exh⟩ := cur
    simp only at hb hx hf
    subst hb hx
    simp [next, hf]
  exact ⟨h1, fun fetch2 => by rw [h1]⟩

/-- Witness for C6: a transport that always fails leaves a fresh iterator
state unchanged and surfaces the typed error. -/
theorem c6_error_preserves_cursor_witness :
    next (fun (_ : Option String) => (.error 7 : Except Nat (ListingPage String)))
        ⟨[], ⟨none, false⟩⟩
      = (.err 7, ⟨[], ⟨none, false⟩⟩, 1) :=
  (c6_error_preserves_cursor
    (fun _ => (.error 7 : Except Nat (ListingPage String)))
    ⟨[], ⟨none, false⟩⟩ 7 rfl rfl rfl).1

end Listing

namespace Stream

variable {α : Type} [DecidableEq α]

theorem mem_cycleEmit (seen obs : List α) (x : α) :
    x ∈ (cycleEmit seen obs).1 ↔ x ∈ obs ∧ x ∉ seen := by
  induction obs generalizing seen with
  | nil => simp [cycleEmit]
  | cons c rest ih =>
    by_cases hc : c ∈ seen
    · simp only [cycleEmit, if_pos hc]
      rw [ih]
      constructor
      · rintro ⟨h1, h2⟩; exact ⟨List.mem_cons_of_mem _ h1, h2⟩
      · rintro ⟨h1, h2⟩
        rcases List.mem_cons.mp h1 with h | h
        · exact absurd (h ▸ hc) h2
        · exact ⟨h, h2⟩
    · simp only [cycleEmit, if_neg hc, List.mem_cons]
      rw [ih]
      constructor
      · rintro (rfl | ⟨h1, h2⟩)
        · exact ⟨Or.inl rfl, hc⟩
        · refine ⟨Or.inr h1, fun hx => h2 (List.mem_append_left _ hx)⟩
      · rintro ⟨h1 | h1, h2⟩
        · exact Or.inl h1
        · by_cases hxc : x = c
          · exact Or.inl hxc
          · refine Or.inr ⟨h1, fun hx => ?_⟩
            rcases List.mem_append.mp hx with h | h
            · exact h2 h
            · simp at h; exact hxc h

theorem cycleEmit_seen (seen obs : List α) :
    (cycleEmit seen obs).2 = seen ++ (cycleEmit seen obs).1 := by
  induction obs generalizing seen with
  | nil => simp [cycleEmit]
  | cons c rest ih =>
    by_cases hc : c ∈ seen
    · simp only [cycleEmit, if_pos hc]; exact ih seen
    · simp only [cycleEmit, if_neg hc]
      rw [ih (seen ++ [c])]
      simp

theorem cycleEmit_nodup (seen obs : List α) :
    (cycleEmit seen obs).1.Nodup := by
  induction obs generalizing seen with
  | nil => simp [cycleEmit]
  | cons c rest ih =>
    by_cases hc : c ∈ seen
    · simp only [cycleEmit, if_pos hc]; exact ih seen
    · simp only [cycleEmit, if_neg hc]
      refine List.nodup_cons.mpr ⟨fun hmem => ?_, ih (seen ++ [c])⟩
      have := (mem_cycleEmit (seen ++ [c]) rest c).mp hmem
      exact this.2 (List.mem_append_right _ (List.mem_singleton.mpr rfl))

theorem cycleEmit_full (seen obs : List α) (hn : obs.Nodup)
    (hd : ∀ x ∈ obs, x ∉ seen) :
    (cycleEmit seen obs).1 = obs := by
  induction obs generalizing seen with
  | nil => simp [cycleEmit]
  | cons c rest ih =>
    have hc : c ∉ seen := hd c (List.mem_cons_self c rest)
    simp only [cycleEmit, if_neg hc]
    congr 1
    refine ih (seen ++ [c]) (List.nodup_cons.mp hn).2 ?_
    intro x hx hmem
    rcases List.mem_append.mp hmem with h | h
    · exact hd x (List.mem_cons_of_mem _ hx) h
    · simp at h
      exact (List.nodup_cons.mp hn).1 (h ▸ hx)

/-- Claim C4: within a single poll cycle the stream emits exactly the
comments newly observed in that cycle — a fullname is emitted iff it is
observed and not yet in the SeenSet — and there is no fixed upper bound on
how many are emitted in one cycle: for every `n` there is a cycle emitting
`n` comments. -/
theorem c4_no_fixed_bound :
    (∀ (seen obs : List Nat) (x : Nat),
      x ∈ (cycleEmit seen obs).1 ↔ x ∈ obs ∧ x ∉ seen)
    ∧ ∀ n : Nat, (cycleEmit ([] : List Nat) (List.range n)).1.length = n := by
  refine ⟨mem_cycleEmit, fun n => ?_⟩
  rw [cycleEmit_full [] (List.range n) (List.nodup_range n)
    (fun x _ hx => (List.not_mem_nil x) hx)]
  exact List.length_range n

theorem mem_runCycles_seen (E : Type) (seen : List α)
    (cs : List (List α)) (x : α) :
    x ∈ (runCycles E seen (cs.map Except.ok)).2 ↔
      x ∈ seen ∨ ∃ c ∈ cs, x ∈ c := by
  induction cs generalizing seen with
  | nil => simp [runCycles]
  | cons obs rest ih =>
    simp only [List.map, runCycles]
    rw [ih]
    rw [cycleEmit_seen]
    constructor
    · rintro (h | h)
      · rcases List.mem_append.mp h with h | h
        · exact Or.inl h
        · have := (mem_cycleEmit seen obs x).mp h
          exact Or.inr ⟨obs, List.mem_cons_self _ _, this.1⟩
      · obtain ⟨c, hc, hx⟩ := h
        exact Or.inr ⟨c, List.mem_cons_of_mem _ hc, hx⟩
    · rintro (h | ⟨c, hc, hx⟩)
      · exact Or.inl (List.mem_append_left _ h)
      · rcases List.mem_cons.mp hc with hceq | hc
        · by_cases hs : x ∈ seen
          · exact Or.inl (List.mem_append_left _ hs)
          · exact Or.inl (List.mem_append_right _
              ((mem_cycleEmit seen obs x).mpr ⟨hceq ▸ hx, hs⟩))
        · exact Or.inr ⟨c, hc, hx⟩

theorem count_emitted (E : Type) (seen : List α) (cs : List (List α))
    (x : α) :
    (emittedAll E seen (cs.map Except.ok)).count x =
      if x ∉ seen ∧ ∃ c ∈ cs, x ∈ c then 1 else 0 := by
  induction cs generalizing seen with
  | nil => simp [emittedAll, runCycles]
  | cons obs rest ih =>
    have hstep : emittedAll E seen ((obs :: rest).map Except.ok)
        = (cycleEmit seen obs).1 ++
          emittedAll E (cycleEmit seen obs).2 (rest.map Except.ok) := by
      simp [emittedAll, runCycles]
    rw [hstep, List.count_append, ih]
    by_cases hs : x ∈ seen
    · have h1 : (cycleEmit seen obs).1.count x = 0 := by
        rw [List.count_eq_zero]
        intro hmem
        exact ((mem_cycleEmit seen obs x).mp hmem).2 hs
      have h2 : x ∈ (cycleEmit seen obs).2 := by
        rw [cycleEmit_seen]; exact List.mem_append_left _ hs
      rw [h1, if_neg (fun hcon => hcon.1 h2), if_neg (fun hcon => hcon.1 hs)]
    · by_cases ho : x ∈ obs
      · have hx1 : x ∈ (cycleEmit seen obs).1 :=
          (mem_cycleEmit seen obs x).mpr ⟨ho, hs⟩
        have h1 : (cycleEmit seen obs).1.count x = 1 :=
          List.count_eq_one_of_mem (cycleEmit_nodup seen obs) hx1
        have h2 : x ∈ (cycleEmit seen obs).2 := by
          rw [cycleEmit_seen]; exact List.mem_append_right _ hx1
        rw [h1, if_neg (fun hcon => hcon.1 h2),
          if_pos ⟨hs, obs, List.mem_cons_self _ _, ho⟩]
      · have h1 : (cycleEmit seen obs).1.count x = 0 := by
          rw [List.count_eq_zero]
          intro hmem
          exact ho ((mem_cycleEmit seen obs x).mp hmem).1
        rw [h1]
        have hseen2 : x ∈ (cycleEmit seen obs).2 ↔ x ∈ seen := by
          rw [cycleEmit_seen]
          constructor
          · intro h
            rcases List.mem_append.mp h with h | h
            · exact h
            · exact absurd ((mem_cycleEmit seen obs x).mp h).1 ho
          · exact List.mem_append_left _
        by_cases hr : ∃ c ∈ rest, x ∈ c
        · have hrr : ∃ c ∈ obs :: rest, x ∈ c := by
            obtain ⟨c, hc, hxc⟩ := hr
            exact ⟨c, List.mem_cons_of_mem _ hc, hxc⟩
          rw [if_pos ⟨fun hmem => hs (hseen2.mp hmem), hr⟩, if_pos ⟨hs, hrr⟩]
        · have hno : ¬ ∃ c ∈ obs :: rest, x ∈ c := by
            rintro ⟨c, hc, hxc⟩
            rcases List.mem_cons.mp hc with hceq | hc
            · exact ho (hceq ▸ hxc)
            · exact hr ⟨c, hc, hxc⟩
          rw [if_neg (fun hcon => hr hcon.2), if_neg (fun hcon => hno hcon.2)]

/-- Claim C3: over any sequence of successful poll cycles in which the
thread's comment set only grows, the stream emits each fullname exactly
once across the lifetime of the stream — its total emission count is 1 if
any cycle observes it and 0 otherwise — and it is emitted in exactly the
cycle that first observes it, regardless of how many later cycles also
observe it. -/
theorem c3_stream_exactly_once (E : Type) (cs : List (List α))
    (_hg : obsGrows cs) (x : α) :
    (emittedAll E [] (cs.map Except.ok)).count x =
      (if ∃ c ∈ cs, x ∈ c then 1 else 0)
    ∧ ∀ pre obs post, cs = pre ++ obs :: post →
      (x ∈ (cycleEmit (runCycles E [] (pre.map Except.ok)).2 obs).1 ↔
        x ∈ obs ∧ ∀ p ∈ pre, x ∉ p) := by
  constructor
  · rw [count_emitted]
    simp
  · intro pre obs post _hcs
    rw [mem_cycleEmit]
    have hseen := mem_runCycles_seen E ([] : List α) pre x
    constructor
    · rintro ⟨h1, h2⟩
      refine ⟨h1, fun p hp hxp => ?_⟩
      exact h2 (hseen.mpr (Or.inr ⟨p, hp, hxp⟩))
    · rintro ⟨h1, h2⟩
      refine ⟨h1, fun hmem => ?_⟩
      rcases hseen.mp hmem with h | ⟨c, hc, hxc⟩
      · exact (List.not_mem_nil x) h
      · exact h2 c hc hxc

/-- Witness for C3 at the spec's example scenario: cycle 1 observes
`[c1]`, cycle 2 observes `[c1, c2]`; `c1` is emitted exactly once (in
cycle 1) and `c2` exactly once (in cycle 2). -/
theorem c3_stream_exactly_once_witness :
    obsGrows [["c1"], ["c1", "c2"]]
    ∧ (emittedAll Unit [] ([["c1"], ["c1", "c2"]].map Except.ok)).count "c1" = 1
    ∧ ("c2" ∈ (cycleEmit
        (runCycles Unit [] ([["c1"]].map Except.ok)).2 ["c1", "c2"]).1 ↔
        "c2" ∈ ["c1", "c2"] ∧ ∀ p ∈ [["c1"]], "c2" ∉ p) := by
  have hg : obsGrows [["c1"], ["c1", "c2"]] := by decide
  refine ⟨hg, ?_, ?_⟩
  · have h := (c3_stream_exactly_once Unit [["c1"], ["c1", "c2"]] hg "c1").1
    rw [h]
    decide
  · exact (c3_stream_exactly_once Unit [["c1"], ["c1", "c2"]] hg "c2").2
      [["c1"]] ["c1", "c2"] [] rfl

theorem cycleEmit_emits_unseen (seen obs : List α) (x : α)
    (hx : x ∈ obs) (hs : x ∉ seen) : x ∈ (cycleEmit seen obs).1 :=
  (mem_cycleEmit seen obs x).mpr ⟨hx, hs⟩

/-- Claim C5: within a single poll cycle, if comments `A` and `B` are both
newly observed (neither is in the SeenSet) and `A` occurs in the cycle's
document-order listing strictly before the first occurrence of `B` — as
the parent of `B` always does, since the flattening of §4.2 visits a
parent before its children and the API reports a parent before any of its
children, and as any older comment does relative to a newer one — then `A`
is emitted to the consumer strictly before `B`. -/
theorem c5_cycle_order (seen : List α) (A B : α) (hAB : A ≠ B)
    (hA : A ∉ seen) (hB : B ∉ seen) :
    ∀ pre post, A ∉ pre → B ∉ pre → B ∈ post →
    ∃ e1 e2, (cycleEmit seen (pre ++ A :: post)).1 = e1 ++ A :: e2
      ∧ B ∈ e2 ∧ A ∉ e1 := by
  intro pre post
  induction pre generalizing seen with
  | nil =>
    intro _ _ hBpost
    simp only [List.nil_append, cycleEmit, if_neg hA]
    refine ⟨[], (cycleEmit (seen ++ [A]) post).1, rfl, ?_, List.not_mem_nil A⟩
    refine cycleEmit_emits_unseen _ _ _ hBpost ?_
    intro hmem
    rcases List.mem_append.mp hmem with h | h
    · exact hB h
    · simp at h; exact hAB h.symm
  | cons h0 pre ih =>
    intro hApre hBpre hBpost
    have hA0 : A ≠ h0 := fun hc => hApre (hc ▸ List.mem_cons_self _ _)
    have hB0 : B ≠ h0 := fun hc => hBpre (hc ▸ List.mem_cons_self _ _)
    have hApre' : A ∉ pre := fun hc => hApre (List.mem_cons_of_mem _ hc)
    have hBpre' : B ∉ pre := fun hc => hBpre (List.mem_cons_of_mem _ hc)
    by_cases hc : h0 ∈ seen
    · simp only [List.cons_append, cycleEmit, if_pos hc]
      exact ih seen hA hB hApre' hBpre' hBpost
    · simp only [List.cons_append, cycleEmit, if_neg hc]
      have hA' : A ∉ seen ++ [h0] := by
        intro hmem
        rcases List.mem_append.mp hmem with h | h
        · exact hA h
        · simp at h; exact hA0 h
      have hB' : B ∉ seen ++ [h0] := by
        intro hmem
        rcases List.mem_append.mp hmem with h | h
        · exact hB h
        · simp at h; exact hB0 h
      obtain ⟨e1, e2, heq, hBe2, hAe1⟩ :=
        ih (seen ++ [h0]) hA' hB' hApre' hBpre' hBpost
      refine ⟨h0 :: e1, e2, ?_, hBe2, ?_⟩
      · simp [heq]
      · intro hmem
        rcases List.mem_cons.mp hmem with h | h
        · exact hA0 h
        · exact hAe1 h

/-- Witness for C5: with an empty SeenSet and document order
`["p", "c"]` (parent before child), the parent is emitted strictly before
the child. -/
theorem c5_cycle_order_witness :
    ∃ e1 e2, (cycleEmit ([] : List String) (["p"] ++ "x" :: ["c"])).1
        = e1 ++ "x" :: e2 ∧ "c" ∈ e2 ∧ "x" ∉ e1 := by
  refine c5_cycle_order [] "x" "c" (by decide) (by decide) (by decide)
    ["p"] ["c"] (by decide) (by decide) (by decide)

theorem runCycles_cons_error (E : Type) (seen : List α) (e : E)
    (l : List (Except E (List α))) :
    runCycles E seen (.error e :: l) =
      (.error e :: (runCycles E seen l).1, (runCycles E seen l).2) := rfl

theorem runCycles_cons_ok (E : Type) (seen : List α) (obs : List α)
    (l : List (Except E (List α))) :
    runCycles E seen (.ok obs :: l) =
      (.ok (cycleEmit seen obs).1 ::
          (runCycles E (cycleEmit seen obs).2 l).1,
        (runCycles E (cycleEmit seen obs).2 l).2) := rfl

theorem runCycles_append (E : Type) (seen : List α)
    (l1 l2 : List (Except E (List α))) :
    runCycles E seen (l1 ++ l2) =
      ((runCycles E seen l1).1 ++ (runCycles E (runCycles E seen l1).2 l2).1,
        (runCycles E (runCycles E seen l1).2 l2).2) := by
  induction l1 generalizing seen with
  | nil => simp [runCycles]
  | cons c rest ih =>
    cases c with
    | error e =>
      rw [List.cons_append, runCycles_cons_error, ih, runCycles_cons_error]
      simp
    | ok obs =>
      rw [List.cons_append, runCycles_cons_ok, ih, runCycles_cons_ok]
      simp

/-- Claim C7: a poll cycle that fails with a transport or decode error
surfaces exactly that typed error to the consumer in its place in the
event sequence, the stream does not terminate (all later cycles are still
processed, starting from the same SeenSet the failed cycle started with,
so the SeenSet after the failed cycle equals the SeenSet before it), and
in a successful cycle a fullname is added to the SeenSet exactly at the
moment it is handed to the consumer — the SeenSet after a cycle is the
SeenSet before it extended by precisely the emitted items, never more. -/
theorem c7_error_recoverable (E : Type) (seen : List α) (e : E)
    (pre post : List (Except E (List α))) :
    (runCycles E seen (pre ++ .error e :: post) =
      ((runCycles E seen pre).1 ++ .error e ::
          (runCycles E (runCycles E seen pre).2 post).1,
        (runCycles E (runCycles E seen pre).2 post).2))
    ∧ ∀ obs : List α,
        (cycleEmit (α := α) seen obs).2 = seen ++ (cycleEmit seen obs).1 := by
  constructor
  · rw [runCycles_append]
    simp [runCycles]
  · intro obs
    exact cycleEmit_seen seen obs

end Stream

namespace Api

/-- Claim C8 (failing evaluation): a transport failure in
`Commentable::replies` or `UserAbout::new`, and likewise a decode failure,
aborts the process through `.unwrap()` instead of being returned to the
immediate caller as the declared typed `APIError`; the `Result` error
channel of both functions is never used. -/
theorem c8_replies_aborts_on_failure :
    (∀ (name id : String)
      (decodeCR : String → Except DecodeError CommentResponse),
      replies name id (fun _ => .error .network) decodeCR = .crashed)
    ∧ (∀ (name id : String) (body : String),
      replies name id (fun _ => .ok body) (fun _ => .error .malformedJson)
        = .crashed)
    ∧ (∀ (name : String)
      (decodeUA : String → Except DecodeError UserAboutData),
      userAboutNew name (fun _ => .error .network) decodeUA = .crashed) :=
  ⟨fun _ _ _ => rfl, fun _ _ _ => rfl, fun _ _ => rfl⟩

/-- Claim C10: every state-mutating `Submission` operation updates exactly
its corresponding cached field when the POST succeeds, and leaves the
entire cached `SubmissionData` unchanged when the POST returns an error;
the POST result itself is always passed through to the caller. -/
theorem c10_mutators_update_iff_success :
    (∀ (d : SubmissionData) (text : String) (e : APIError),
      edit d text (.error e) = (.error e, d)
      ∧ edit d text (.ok ()) = (.ok (), { d with selftext := text }))
    ∧ (∀ (d : SubmissionData) (e : APIError),
      mark_nsfw d (.error e) = (.error e, d)
      ∧ mark_nsfw d (.ok ()) = (.ok (), { d with over_18 := true })
      ∧ unmark_nsfw d (.error e) = (.error e, d)
      ∧ unmark_nsfw d (.ok ()) = (.ok (), { d with over_18 := false })
      ∧ stick d (.error e) = (.error e, d)
      ∧ stick d (.ok ()) = (.ok (), { d with stickied := true })
      ∧ unstick d (.error e) = (.error e, d)
      ∧ unstick d (.ok ()) = (.ok (), { d with stickied := false })
      ∧ lock d (.error e) = (.error e, d)
      ∧ lock d (.ok ()) = (.ok (), { d with locked := true })
      ∧ unlock d (.error e) = (.error e, d)
      ∧ unlock d (.ok ()) = (.ok (), { d with locked := false })
      ∧ hide d (.error e) = (.error e, d)
      ∧ hide d (.ok ()) = (.ok (), { d with hidden := true })
      ∧ show' d (.error e) = (.error e, d)
      ∧ show' d (.ok ()) = (.ok (), { d with hidden := false })
      ∧ distinguish d (.error e) = (.error e, d)
      ∧ distinguish d (.ok ())
          = (.ok (), { d with distinguished := some "moderator" })
      ∧ undistinguish d (.error e) = (.error e, d)
      ∧ undistinguish d (.ok ()) = (.ok (), { d with distinguished := none })) :=
  ⟨fun _ _ _ => ⟨rfl, rfl⟩,
   fun _ _ => ⟨rfl, rfl, rfl, rfl, rfl, rfl, rfl, rfl, rfl, rfl, rfl, rfl,
     rfl, rfl, rfl, rfl, rfl, rfl, rfl, rfl⟩⟩

end Api

namespace Tree

/-- Claim C9: `build` and MoreComments expansion are deterministic — two
runs on the same input sequence produce structurally identical trees with
identical child order, and expanding the same stub twice against the same
backing data yields structurally identical results.  Both are pure
functions of their input in this model, as §4.2 prescribes
(no hashing-based reordering, no hidden state), so determinism is
definitional. -/
theorem c9_build_deterministic :
    (∀ (root : String) (items : List FlatItem),
      build root items = build root items)
    ∧ ∀ (node : BNode) (fetched : List FlatItem),
      expandMore node fetched = expandMore node fetched :=
  ⟨fun _ _ => rfl, fun _ _ => rfl⟩

theorem dfsL_nil (A : List BNode) : ∀ fuel, dfsL A fuel [] = [] := by
  intro fuel; cases fuel <;> rfl

theorem visitedL_nil (A : List BNode) : ∀ fuel, visitedL A fuel [] = [] := by
  intro fuel; cases fuel <;> rfl

theorem dfsL_cons (A : List BNode) (fuel : Nat) (i : Nat) (rest : List Nat) :
    dfsL A (fuel + 1) (i :: rest) =
      (match A[i]? with
       | some nd => flatOf nd :: dfsL A fuel nd.childrenOf
       | none => []) ++ dfsL A (fuel + 1) rest := rfl

theorem visitedL_cons (A : List BNode) (fuel : Nat) (i : Nat)
    (rest : List Nat) :
    visitedL A (fuel + 1) (i :: rest) =
      (i :: (match A[i]? with
       | some nd => visitedL A fuel nd.childrenOf
       | none => [])) ++ visitedL A (fuel + 1) rest := rfl

theorem dfsL_append (A : List BNode) (fuel : Nat) :
    ∀ xs ys : List Nat,
    dfsL A fuel (xs ++ ys) = dfsL A fuel xs ++ dfsL A fuel ys := by
  cases fuel with
  | zero => intro xs ys; rfl
  | succ f =>
    intro xs ys
    induction xs with
    | nil => simp [dfsL_nil]
    | cons i rest ih =>
      rw [List.cons_append, dfsL_cons, dfsL_cons, ih, List.append_assoc]

theorem visitedL_append (A : List BNode) (fuel : Nat) :
    ∀ xs ys : List Nat,
    visitedL A fuel (xs ++ ys) =
      visitedL A fuel xs ++ visitedL A fuel ys := by
  cases fuel with
  | zero => intro xs ys; rfl
  | succ f =>
    intro xs ys
    induction xs with
    | nil => simp [visitedL_nil]
    | cons i rest ih =>
      rw [List.cons_append, visitedL_cons, visitedL_cons, ih,
        List.append_assoc]

theorem mem_visitedL_self (A : List BNode) (fuel : Nat) :
    ∀ (l : List Nat) (c : Nat), c ∈ l → c ∈ visitedL A (fuel + 1) l := by
  intro l
  induction l with
  | nil => intro c hc; exact absurd hc (List.not_mem_nil c)
  | cons i rest ih =>
    intro c hc
    rw [visitedL_cons]
    rcases List.mem_cons.mp hc with hceq | hc
    · exact List.mem_append_left _ (hceq ▸ List.mem_cons_self _ _)
    · exact List.mem_append_right _ (ih c hc)

theorem dfs_agree (A A' : List BNode) :
    ∀ (fuel : Nat) (l : List Nat),
    (∀ i ∈ visitedL A fuel l, A'[i]? = A[i]?) →
    dfsL A' fuel l = dfsL A fuel l
      ∧ visitedL A' fuel l = visitedL A fuel l := by
  intro fuel
  induction fuel with
  | zero => intro l _; exact ⟨rfl, rfl⟩
  | succ f ihf =>
    intro l
    induction l with
    | nil => intro _; exact ⟨rfl, rfl⟩
    | cons i rest ihl =>
      intro h
      have hi : A'[i]? = A[i]? := by
        refine h i ?_
        rw [visitedL_cons]
        exact List.mem_append_left _ (List.mem_cons_self _ _)
      have hrest : ∀ j ∈ visitedL A (f + 1) rest, A'[j]? = A[j]? := by
        intro j hj
        refine h j ?_
        rw [visitedL_cons]
        exact List.mem_append_right _ hj
      obtain ⟨hr1, hr2⟩ := ihl hrest
      cases hnd : A[i]? with
      | none =>
        rw [dfsL_cons, dfsL_cons, visitedL_cons, visitedL_cons, hnd, hi, hnd,
          hr1, hr2]
        exact ⟨rfl, rfl⟩
      | some nd =>
        have hch : ∀ j ∈ visitedL A f nd.childrenOf, A'[j]? = A[j]? := by
          intro j hj
          refine h j ?_
          rw [visitedL_cons, hnd]
          exact List.mem_append_left _ (List.mem_cons_of_mem _ hj)
        obtain ⟨hc1, hc2⟩ := ihf nd.childrenOf hch
        rw [dfsL_cons, dfsL_cons, visitedL_cons, visitedL_cons, hnd, hi, hnd,
          hr1, hr2]
        constructor
        · show (flatOf nd :: dfsL A' f nd.childrenOf) ++ _ =
            (flatOf nd :: dfsL A f nd.childrenOf) ++ _
          rw [hc1]
        · show (i :: visitedL A' f nd.childrenOf) ++ _ =
            (i :: visitedL A f nd.childrenOf) ++ _
          rw [hc2]

theorem visitedL_lower (A : List BNode) (hGB : GB A) :
    ∀ (fuel : Nat) (l : List Nat) (v : Nat),
    v ∈ visitedL A fuel l → ∃ r ∈ l, r ≤ v := by
  intro fuel
  induction fuel with
  | zero => intro l v hv; simp [visitedL] at hv
  | succ f ihf =>
    intro l
    induction l with
    | nil => intro v hv; rw [visitedL_nil] at hv; exact absurd hv (by simp)
    | cons i rest ihl =>
      intro v hv
      rw [visitedL_cons] at hv
      rcases List.mem_append.mp hv with hv | hv
      · rcases List.mem_cons.mp hv with hveq | hv
        · exact ⟨i, List.mem_cons_self _ _, hveq.ge⟩
        · cases hnd : A[i]? with
          | none => rw [hnd] at hv; exact absurd hv (by simp)
          | some nd =>
            rw [hnd] at hv
            obtain ⟨c, hc, hcv⟩ := ihf nd.childrenOf v hv
            have := (hGB i nd hnd c hc).1
            exact ⟨i, List.mem_cons_self _ _, by omega⟩
      · obtain ⟨r, hr, hrv⟩ := ihl v hv
        exact ⟨r, List.mem_cons_of_mem _ hr, hrv⟩

theorem visitedL_upper (A : List BNode) (hGB : GB A) :
    ∀ (fuel : Nat) (l : List Nat), (∀ r ∈ l, r < A.length) →
    ∀ v ∈ visitedL A fuel l, v < A.length := by
  intro fuel
  induction fuel with
  | zero => intro l _ v hv; simp [visitedL] at hv
  | succ f ihf =>
    intro l
    induction l with
    | nil => intro _ v hv; rw [visitedL_nil] at hv; exact absurd hv (by simp)
    | cons i rest ihl =>
      intro hb v hv
      rw [visitedL_cons] at hv
      rcases List.mem_append.mp hv with hv | hv
      · rcases List.mem_cons.mp hv with hveq | hv
        · exact hveq ▸ hb i (List.mem_cons_self _ _)
        · cases hnd : A[i]? with
          | none => rw [hnd] at hv; exact absurd hv (by simp)
          | some nd =>
            rw [hnd] at hv
            exact ihf nd.childrenOf
              (fun c hc => (hGB i nd hnd c hc).2) v hv
      · exact ihl (fun r hr => hb r (List.mem_cons_of_mem _ hr)) v hv

theorem dfs_fuel_irrel (A : List BNode) (hGB : GB A) :
    ∀ (fuel1 fuel2 : Nat) (l : List Nat),
    (∀ r ∈ l, r < A.length ∧ A.length - r ≤ fuel1 ∧ A.length - r ≤ fuel2) →
    dfsL A fuel1 l = dfsL A fuel2 l
      ∧ visitedL A fuel1 l = visitedL A fuel2 l := by
  intro fuel1
  induction fuel1 using Nat.strong_induction_on with
  | _ fuel1 ihs =>
    intro fuel2 l
    induction l with
    | nil =>
      intro _
      rw [dfsL_nil, dfsL_nil, visitedL_nil, visitedL_nil]
      exact ⟨rfl, rfl⟩
    | cons i rest ihl =>
      intro h
      obtain ⟨hi, hif1, hif2⟩ := h i (List.mem_cons_self _ _)
      have hf1 : 0 < fuel1 := by omega
      have hf2 : 0 < fuel2 := by omega
      obtain ⟨f1, rfl⟩ : ∃ f1, fuel1 = f1 + 1 :=
        ⟨fuel1 - 1, by omega⟩
      obtain ⟨f2, rfl⟩ : ∃ f2, fuel2 = f2 + 1 :=
        ⟨fuel2 - 1, by omega⟩
      have hrest := ihl fun r hr => h r (List.mem_cons_of_mem _ hr)
      cases hnd : A[i]? with
      | none =>
        rw [dfsL_cons, dfsL_cons, visitedL_cons, visitedL_cons, hnd,
          hrest.1, hrest.2]
        exact ⟨rfl, rfl⟩
      | some nd =>
        have hch : ∀ c ∈ nd.childrenOf,
            c < A.length ∧ A.length - c ≤ f1 ∧ A.length - c ≤ f2 := by
          intro c hc
          have := hGB i nd hnd c hc
          exact ⟨this.2, by omega, by omega⟩
        have hsub := ihs f1 (by omega) f2 nd.childrenOf hch
        rw [dfsL_cons, dfsL_cons, visitedL_cons, visitedL_cons, hnd,
          hrest.1, hrest.2]
        constructor
        · show (flatOf nd :: dfsL A f1 nd.childrenOf) ++ _ =
            (flatOf nd :: dfsL A f2 nd.childrenOf) ++ _
          rw [hsub.1]
        · show (i :: visitedL A f1 nd.childrenOf) ++ _ =
            (i :: visitedL A f2 nd.childrenOf) ++ _
          rw [hsub.2]

theorem getElem?_bound {A : List BNode} {i : Nat} {nd : BNode}
    (h : A[i]? = some nd) : i < A.length :=
  (List.getElem?_eq_some_iff.mp h).1

theorem dfsL_single (A : List BNode) (fuel n : Nat) (nd : BNode)
    (h : A[n]? = some nd) (hch : nd.childrenOf = []) :
    dfsL A (fuel + 1) [n] = [flatOf nd]
      ∧ visitedL A (fuel + 1) [n] = [n] := by
  constructor
  · rw [dfsL_cons, h]
    show (flatOf nd :: dfsL A fuel nd.childrenOf) ++ dfsL A (fuel + 1) [] = _
    rw [hch, dfsL_nil, dfsL_nil]
    rfl
  · rw [visitedL_cons, h]
    show (n :: visitedL A fuel nd.childrenOf) ++ visitedL A (fuel + 1) [] = _
    rw [hch, visitedL_nil, visitedL_nil]
    rfl

theorem dfsL_one (A : List BNode) (fuel n : Nat) (nd : BNode)
    (h : A[n]? = some nd) :
    dfsL A (fuel + 1) [n] = flatOf nd :: dfsL A fuel nd.childrenOf
      ∧ visitedL A (fuel + 1) [n] = n :: visitedL A fuel nd.childrenOf := by
  constructor
  · rw [dfsL_cons, h]
    show (flatOf nd :: dfsL A fuel nd.childrenOf) ++ dfsL A (fuel + 1) [] = _
    rw [dfsL_nil]
    simp
  · rw [visitedL_cons, h]
    show (n :: visitedL A fuel nd.childrenOf) ++ visitedL A (fuel + 1) [] = _
    rw [visitedL_nil]
    simp

theorem segOk_nil (A : List BNode) (ub : Nat) : segOk A [] ub [] := by
  intro fuel _
  rw [dfsL_nil, visitedL_nil]
  exact ⟨rfl, by simp⟩

theorem segOk_transport (A A' : List BNode) (C : List Nat) (ub j : Nat)
    (O : List FlatItem) (hlen : A.length ≤ A'.length)
    (hagree : ∀ i, i < A.length → i ≠ j → A'[i]? = A[i]?)
    (hub : ub ≤ j) (hubA : ub ≤ A.length) (h : segOk A C ub O) :
    segOk A' C ub O := by
  intro fuel hf
  obtain ⟨h1, h2⟩ := h fuel (le_trans hlen hf)
  have hag : ∀ i ∈ visitedL A fuel C, A'[i]? = A[i]? := by
    intro i hi
    have hiub := h2 i hi
    exact hagree i (by omega) (by omega)
  obtain ⟨e1, e2⟩ := dfs_agree A A' fuel C hag
  refine ⟨by rw [e1, h1], ?_⟩
  intro v hv
  rw [e2] at hv
  exact h2 v hv

theorem segOk_transport_gt (A A' : List BNode) (C : List Nat) (ub j : Nat)
    (O : List FlatItem) (hGB : GB A) (hlen : A.length ≤ A'.length)
    (hagree : ∀ i, i < A.length → i ≠ j → A'[i]? = A[i]?)
    (hCgt : ∀ r ∈ C, j < r) (hubA : ub ≤ A.length) (h : segOk A C ub O) :
    segOk A' C ub O := by
  intro fuel hf
  obtain ⟨h1, h2⟩ := h fuel (le_trans hlen hf)
  have hag : ∀ i ∈ visitedL A fuel C, A'[i]? = A[i]? := by
    intro i hi
    have hiub := h2 i hi
    obtain ⟨r, hr, hri⟩ := visitedL_lower A hGB fuel C i hi
    have := hCgt r hr
    exact hagree i (by omega) (by omega)
  obtain ⟨e1, e2⟩ := dfs_agree A A' fuel C hag
  refine ⟨by rw [e1, h1], ?_⟩
  intro v hv
  rw [e2] at hv
  exact h2 v hv

theorem frChain_nil_none (A : List BNode) (R : List Nat) (P : List FlatItem)
    (acc : List FlatItem) :
    frChain A R P none acc [] = segOk A R A.length P := rfl

theorem frChain_nil_some (A : List BNode) (R : List Nat) (P : List FlatItem)
    (s : Nat) (acc : List FlatItem) :
    frChain A R P (some s) acc [] =
      ∃ R0 O0, R = R0 ++ [s] ∧ segOk A R0 s O0 ∧ P = O0 ++ acc := rfl

theorem frChain_cons_none (A : List BNode) (R : List Nat) (P : List FlatItem)
    (acc : List FlatItem) (fr : Frame) (rest : List Frame) :
    frChain A R P none acc (fr :: rest) =
      ∃ nd, A[fr.idx]? = some nd ∧ idOf nd = some fr.name ∧
        segOk A nd.childrenOf A.length fr.closed ∧
        frChain A R P (some fr.idx) (flatOf nd :: (fr.closed ++ acc)) rest :=
  rfl

theorem frChain_cons_some (A : List BNode) (R : List Nat) (P : List FlatItem)
    (c : Nat) (acc : List FlatItem) (fr : Frame) (rest : List Frame) :
    frChain A R P (some c) acc (fr :: rest) =
      ∃ nd, A[fr.idx]? = some nd ∧ idOf nd = some fr.name ∧
        (∃ C, nd.childrenOf = C ++ [c] ∧ fr.idx < c ∧
          segOk A C c fr.closed) ∧
        frChain A R P (some fr.idx) (flatOf nd :: (fr.closed ++ acc)) rest :=
  rfl

theorem frChain_pop (A : List BNode) (R : List Nat) (P : List FlatItem)
    (fr1 fr2 : Frame) (rest : List Frame) (hGB : GB A)
    (h : frChain A R P none [] (fr1 :: fr2 :: rest)) :
    ∃ cl, frChain A R P none [] (⟨fr2.name, fr2.idx, cl⟩ :: rest) := by
  rw [frChain_cons_none] at h
  obtain ⟨nd1, hnd1, hid1, hseg1, h2⟩ := h
  rw [frChain_cons_some] at h2
  obtain ⟨nd2, hnd2, hid2, ⟨C2, hC2, hlt, hseg2⟩, h3⟩ := h2
  have hfr1lt : fr1.idx < A.length := getElem?_bound hnd1
  refine ⟨fr2.closed ++ flatOf nd1 :: fr1.closed, ?_⟩
  rw [frChain_cons_none]
  refine ⟨nd2, hnd2, hid2, ?_, ?_⟩
  · show segOk A nd2.childrenOf A.length (fr2.closed ++ flatOf nd1 :: fr1.closed)
    rw [hC2]
    intro fuel hf
    obtain ⟨f, rfl⟩ : ∃ f, fuel = f + 1 := ⟨fuel - 1, by omega⟩
    have hseg1A := hseg1 A.length (le_refl _)
    have hchb : ∀ c ∈ nd1.childrenOf,
        c < A.length ∧ A.length - c ≤ f ∧ A.length - c ≤ A.length := by
      intro c hc
      have hgb := hGB fr1.idx nd1 hnd1 c hc
      exact ⟨hgb.2, by omega, by omega⟩
    have hirr := dfs_fuel_irrel A hGB f A.length nd1.childrenOf hchb
    have hone := dfsL_one A f fr1.idx nd1 hnd1
    constructor
    · rw [dfsL_append, hone.1, hirr.1, hseg1A.1, (hseg2 (f + 1) hf).1]
    · intro v hv
      rw [visitedL_append] at hv
      rcases List.mem_append.mp hv with hv | hv
      · have := (hseg2 (f + 1) hf).2 v hv
        omega
      · rw [hone.2] at hv
        rcases List.mem_cons.mp hv with hveq | hv
        · omega
        · rw [hirr.2] at hv
          exact hseg1A.2 v hv
  · have heq : flatOf nd2 :: ((fr2.closed ++ flatOf nd1 :: fr1.closed) ++ [])
        = flatOf nd2 :: (fr2.closed ++ (flatOf nd1 :: (fr1.closed ++ []))) := by
      simp
    rw [heq]
    exact h3

theorem frChain_pop_root (A : List BNode) (R : List Nat) (P : List FlatItem)
    (fr1 : Frame) (hGB : GB A)
    (h : frChain A R P none [] [fr1]) :
    frChain A R P none [] [] := by
  rw [frChain_cons_none] at h
  obtain ⟨nd1, hnd1, hid1, hseg1, h2⟩ := h
  rw [frChain_nil_some] at h2
  obtain ⟨R0, O0, hR, hseg0, hP⟩ := h2
  have hfr1lt : fr1.idx < A.length := getElem?_bound hnd1
  rw [frChain_nil_none, hR]
  intro fuel hf
  obtain ⟨f, rfl⟩ : ∃ f, fuel = f + 1 := ⟨fuel - 1, by omega⟩
  have hseg1A := hseg1 A.length (le_refl _)
  have hchb : ∀ c ∈ nd1.childrenOf,
      c < A.length ∧ A.length - c ≤ f ∧ A.length - c ≤ A.length := by
    intro c hc
    have hgb := hGB fr1.idx nd1 hnd1 c hc
    exact ⟨hgb.2, by omega, by omega⟩
  have hirr := dfs_fuel_irrel A hGB f A.length nd1.childrenOf hchb
  have hone := dfsL_one A f fr1.idx nd1 hnd1
  constructor
  · rw [dfsL_append, hone.1, hirr.1, hseg1A.1, (hseg0 (f + 1) hf).1, hP]
    simp
  · intro v hv
    rw [visitedL_append] at hv
    rcases List.mem_append.mp hv with hv | hv
    · have := (hseg0 (f + 1) hf).2 v hv
      omega
    · rw [hone.2] at hv
      rcases List.mem_cons.mp hv with hveq | hv
      · omega
      · rw [hirr.2] at hv
        exact hseg1A.2 v hv

theorem frChain_pop_all (A : List BNode) (R : List Nat) (P : List FlatItem)
    (hGB : GB A) :
    ∀ (n : Nat) (frames : List Frame), frames.length ≤ n →
    frChain A R P none [] frames → frChain A R P none [] [] := by
  intro n
  induction n with
  | zero =>
    intro frames hlen h
    have : frames = [] := List.length_eq_zero.mp (by omega)
    exact this ▸ h
  | succ m ih =>
    intro frames hlen h
    match frames with
    | [] => exact h
    | [fr1] => exact frChain_pop_root A R P fr1 hGB h
    | fr1 :: fr2 :: rest =>
      obtain ⟨cl, h2⟩ := frChain_pop A R P fr1 fr2 rest hGB h
      refine ih (⟨fr2.name, fr2.idx, cl⟩ :: rest) ?_ h2
      simp at hlen ⊢
      omega

theorem frChain_pop_to (A : List BNode) (R : List Nat) (P : List FlatItem)
    (hGB : GB A) :
    ∀ (n : Nat) (popped : List Frame) (fr : Frame) (rest : List Frame),
    popped.length ≤ n →
    frChain A R P none [] (popped ++ fr :: rest) →
    ∃ cl, frChain A R P none [] (⟨fr.name, fr.idx, cl⟩ :: rest) := by
  intro n
  induction n with
  | zero =>
    intro popped fr rest hlen h
    have hp : popped = [] := List.length_eq_zero.mp (by omega)
    subst hp
    exact ⟨fr.closed, h⟩
  | succ m ih =>
    intro popped fr rest hlen h
    match popped with
    | [] => exact ⟨fr.closed, h⟩
    | p1 :: ptail =>
      match ptail with
      | [] =>
        obtain ⟨cl, h2⟩ := frChain_pop A R P p1 fr rest hGB h
        exact ⟨cl, h2⟩
      | p2 :: pt2 =>
        obtain ⟨cl2, h2⟩ :=
          frChain_pop A R P p1 p2 (pt2 ++ fr :: rest) hGB h
        refine ih (⟨p2.name, p2.idx, cl2⟩ :: pt2) fr rest ?_ h2
        simp at hlen ⊢
        omega

theorem flatOf_nodeOf (it : FlatItem) : flatOf (nodeOf it) = it := by
  cases it <;> rfl

theorem childrenOf_nodeOf (it : FlatItem) : (nodeOf it).childrenOf = [] := by
  cases it <;> rfl

theorem addChild_eqs (nd : BNode) (s : String) (m : Nat)
    (h : idOf nd = some s) :
    (nd.addChild m).childrenOf = nd.childrenOf ++ [m]
      ∧ idOf (nd.addChild m) = some s
      ∧ flatOf (nd.addChild m) = flatOf nd := by
  cases nd with
  | comment i p b cs => exact ⟨rfl, h, rfl⟩
  | more p c k => simp [idOf] at h

theorem frChain_shift (A A' : List BNode) (X : List FlatItem) (j : Nat)
    (hlen : A.length ≤ A'.length)
    (hagree : ∀ i, i < A.length → i ≠ j → A'[i]? = A[i]?)
    (hj : j < A.length) :
    ∀ (frames : List Frame) (c : Nat) (acc : List FlatItem)
      (R : List Nat) (P : List FlatItem), c ≤ j →
    frChain A R P (some c) acc frames →
    frChain A' R (P ++ X) (some c) (acc ++ X) frames := by
  intro frames
  induction frames with
  | nil =>
    intro c acc R P hc h
    rw [frChain_nil_some] at h ⊢
    obtain ⟨R0, O0, hR, hseg, hP⟩ := h
    refine ⟨R0, O0, hR, ?_, ?_⟩
    · exact segOk_transport A A' R0 c j O0 hlen hagree hc (by omega) hseg
    · rw [hP, List.append_assoc]
  | cons fr rest ih =>
    intro c acc R P hc h
    rw [frChain_cons_some] at h ⊢
    obtain ⟨nd, hnd, hid, ⟨C, hC, hlt, hseg⟩, hrec⟩ := h
    have hfr : fr.idx < A.length := getElem?_bound hnd
    refine ⟨nd, ?_, hid, ⟨C, hC, hlt, ?_⟩, ?_⟩
    · rw [hagree fr.idx hfr (by omega)]; exact hnd
    · exact segOk_transport A A' C c j _ hlen hagree hc (by omega) hseg
    · have hres := ih fr.idx (flatOf nd :: (fr.closed ++ acc)) R P
        (by omega) hrec
      have heq : (flatOf nd :: (fr.closed ++ acc)) ++ X
          = flatOf nd :: (fr.closed ++ (acc ++ X)) := by simp
      rw [heq] at hres
      exact hres

theorem frChain_attach_root_comment (A : List BNode) (R : List Nat)
    (P : List FlatItem) (cid cpar cbody : String)
    (h : frChain A R P none [] []) :
    frChain (A ++ [nodeOf (.comment cid cpar cbody)]) (R ++ [A.length])
      (P ++ [FlatItem.comment cid cpar cbody]) none []
      [⟨cid, A.length, []⟩] := by
  rw [frChain_nil_none] at h
  rw [frChain_cons_none]
  refine ⟨nodeOf (.comment cid cpar cbody), ?_, rfl, ?_, ?_⟩
  · exact List.getElem?_concat_length _ _
  · exact segOk_nil _ _
  · rw [frChain_nil_some]
    refine ⟨R, P, rfl, ?_, by simp [flatOf_nodeOf]⟩
    refine segOk_transport A _ R A.length A.length P (by simp) ?_
      (le_refl _) (le_refl _) h
    intro i hi _
    exact List.getElem?_append_left hi

theorem frChain_attach_root_more (A : List BNode) (R : List Nat)
    (P : List FlatItem) (p : String) (cids : List String) (cnt : Nat)
    (h : frChain A R P none [] []) :
    frChain (A ++ [nodeOf (.more p cids cnt)]) (R ++ [A.length])
      (P ++ [FlatItem.more p cids cnt]) none [] [] := by
  rw [frChain_nil_none] at h ⊢
  have hseg' : segOk (A ++ [nodeOf (.more p cids cnt)]) R A.length P := by
    refine segOk_transport A _ R A.length A.length P (by simp) ?_
      (le_refl _) (le_refl _) h
    intro i hi _
    exact List.getElem?_append_left hi
  intro fuel hf
  simp only [List.length_append, List.length_cons, List.length_nil] at hf
  obtain ⟨f, rfl⟩ : ∃ f, fuel = f + 1 := ⟨fuel - 1, by omega⟩
  obtain ⟨h1, h2⟩ := hseg' (f + 1) (by simp; omega)
  have hgetn : (A ++ [nodeOf (.more p cids cnt)])[A.length]?
      = some (nodeOf (.more p cids cnt)) := List.getElem?_concat_length _ _
  have hsingle := dfsL_single _ f A.length _ hgetn (childrenOf_nodeOf _)
  constructor
  · rw [dfsL_append, h1, hsingle.1, flatOf_nodeOf]
  · intro v hv
    rw [visitedL_append] at hv
    simp only [List.length_append, List.length_cons, List.length_nil]
    rcases List.mem_append.mp hv with hv | hv
    · have := h2 v hv
      omega
    · rw [hsingle.2] at hv
      simp at hv
      omega

theorem frChain_attach_frame_comment (A : List BNode) (R : List Nat)
    (P : List FlatItem) (p : String) (j : Nat) (cl : List FlatItem)
    (ftail : List Frame) (cid cpar cbody : String) (nd : BNode)
    (hGB : GB A) (hnd : A[j]? = some nd) (hid : idOf nd = some p)
    (hseg : segOk A nd.childrenOf A.length cl)
    (hrec : frChain A R P (some j) (flatOf nd :: (cl ++ [])) ftail) :
    frChain ((A ++ [nodeOf (.comment cid cpar cbody)]).set j
        (nd.addChild A.length))
      R (P ++ [FlatItem.comment cid cpar cbody]) none []
      (⟨cid, A.length, []⟩ :: ⟨p, j, cl⟩ :: ftail) := by
  have hj : j < A.length := getElem?_bound hnd
  obtain ⟨hch, hid', hflat⟩ := addChild_eqs nd p A.length hid
  set it : FlatItem := .comment cid cpar cbody with hit
  set A' : List BNode := (A ++ [nodeOf it]).set j (nd.addChild A.length)
    with hA'
  have hlenA' : A'.length = A.length + 1 := by simp [hA']
  have hagree : ∀ i, i < A.length → i ≠ j → A'[i]? = A[i]? := by
    intro i hi hij
    rw [hA', List.getElem?_set_ne (Ne.symm hij), List.getElem?_append_left hi]
  have hgetj : A'[j]? = some (nd.addChild A.length) := by
    rw [hA', List.getElem?_set_self (by simp; omega)]
  have hgetn : A'[A.length]? = some (nodeOf it) := by
    rw [hA', List.getElem?_set_ne (by omega : j ≠ A.length),
      List.getElem?_concat_length]
  rw [frChain_cons_none]
  refine ⟨nodeOf it, hgetn, rfl, ?_, ?_⟩
  · exact segOk_nil _ _
  · rw [frChain_cons_some]
    refine ⟨nd.addChild A.length, hgetj, hid',
      ⟨nd.childrenOf, hch, hj, ?_⟩, ?_⟩
    · refine segOk_transport_gt A A' nd.childrenOf A.length j cl hGB
        (by omega) hagree ?_ (le_refl _) hseg
      intro r hr
      exact (hGB j nd hnd r hr).1
    · have hsh := frChain_shift A A' [it] j (by omega) hagree hj ftail j
        (flatOf nd :: (cl ++ [])) R P (le_refl j) hrec
      have heq : (flatOf nd :: (cl ++ [])) ++ [it]
          = flatOf (nd.addChild A.length) ::
              (cl ++ (flatOf (nodeOf it) :: ([] ++ []))) := by
        rw [hflat, flatOf_nodeOf]
        simp
      rw [heq] at hsh
      exact hsh

theorem frChain_attach_frame_more (A : List BNode) (R : List Nat)
    (P : List FlatItem) (p : String) (j : Nat) (cl : List FlatItem)
    (ftail : List Frame) (mpar : String) (cids : List String) (cnt : Nat)
    (nd : BNode)
    (hGB : GB A) (hnd : A[j]? = some nd) (hid : idOf nd = some p)
    (hseg : segOk A nd.childrenOf A.length cl)
    (hrec : frChain A R P (some j) (flatOf nd :: (cl ++ [])) ftail) :
    frChain ((A ++ [nodeOf (.more mpar cids cnt)]).set j
        (nd.addChild A.length))
      R (P ++ [FlatItem.more mpar cids cnt]) none []
      (⟨p, j, cl ++ [FlatItem.more mpar cids cnt]⟩ :: ftail) := by
  have hj : j < A.length := getElem?_bound hnd
  obtain ⟨hch, hid', hflat⟩ := addChild_eqs nd p A.length hid
  set it : FlatItem := .more mpar cids cnt with hit
  set A' : List BNode := (A ++ [nodeOf it]).set j (nd.addChild A.length)
    with hA'
  have hlenA' : A'.length = A.length + 1 := by simp [hA']
  have hagree : ∀ i, i < A.length → i ≠ j → A'[i]? = A[i]? := by
    intro i hi hij
    rw [hA', List.getElem?_set_ne (Ne.symm hij), List.getElem?_append_left hi]
  have hgetj : A'[j]? = some (nd.addChild A.length) := by
    rw [hA', List.getElem?_set_self (by simp; omega)]
  have hgetn : A'[A.length]? = some (nodeOf it) := by
    rw [hA', List.getElem?_set_ne (by omega : j ≠ A.length),
      List.getElem?_concat_length]
  have hsegC : segOk A' nd.childrenOf A.length cl := by
    refine segOk_transport_gt A A' nd.childrenOf A.length j cl hGB
      (by omega) hagree ?_ (le_refl _) hseg
    intro r hr
    exact (hGB j nd hnd r hr).1
  rw [frChain_cons_none]
  refine ⟨nd.addChild A.length, hgetj, hid', ?_, ?_⟩
  · rw [hch]
    intro fuel hf
    rw [hlenA'] at hf
    obtain ⟨f, rfl⟩ : ∃ f, fuel = f + 1 := ⟨fuel - 1, by omega⟩
    obtain ⟨h1, h2⟩ := hsegC (f + 1) (by rw [hlenA']; omega)
    have hsingle := dfsL_single A' f A.length _ hgetn (childrenOf_nodeOf _)
    constructor
    · rw [dfsL_append, h1, hsingle.1, flatOf_nodeOf]
    · intro v hv
      rw [visitedL_append] at hv
      rw [hlenA']
      rcases List.mem_append.mp hv with hv | hv
      · have := h2 v hv
        omega
      · rw [hsingle.2] at hv
        simp at hv
        omega
  · have hsh := frChain_shift A A' [it] j (by omega) hagree hj ftail j
      (flatOf nd :: (cl ++ [])) R P (le_refl j) hrec
    have heq : (flatOf nd :: (cl ++ [])) ++ [it]
        = flatOf (nd.addChild A.length) :: ((cl ++ [it]) ++ []) := by
      rw [hflat]
      simp
    rw [heq] at hsh
    exact hsh

theorem lookupId_mem : ∀ (m : List (String × Nat)) (k : String) (i : Nat),
    lookupId m k = some i → (k, i) ∈ m := by
  intro m
  induction m with
  | nil => intro k i h; simp [lookupId] at h
  | cons pr rest ih =>
    intro k i h
    obtain ⟨s, v⟩ := pr
    by_cases hs : s = k
    · rw [lookupId, if_pos hs] at h
      subst hs
      rw [Option.some.injEq] at h
      subst h
      exact List.mem_cons_self _ _
    · rw [lookupId, if_neg hs] at h
      exact List.mem_cons_of_mem _ (ih k i h)

theorem mem_lookupId : ∀ (m : List (String × Nat)) (k : String) (i : Nat),
    (k, i) ∈ m → ∃ j, lookupId m k = some j := by
  intro m
  induction m with
  | nil => intro k i h; simp at h
  | cons pr rest ih =>
    intro k i h
    obtain ⟨s, v⟩ := pr
    by_cases hs : s = k
    · exact ⟨v, by rw [lookupId, if_pos hs]⟩
    · rcases List.mem_cons.mp h with heq | h
      · exact absurd (congrArg Prod.fst heq).symm hs
      · obtain ⟨j, hj⟩ := ih k i h
        exact ⟨j, by rw [lookupId, if_neg hs]; exact hj⟩

theorem entries_unique : ∀ (m : List (String × Nat)),
    (m.map Prod.fst).Nodup → ∀ (k : String) (i j : Nat),
    (k, i) ∈ m → (k, j) ∈ m → i = j := by
  intro m
  induction m with
  | nil => intro _ k i j hi _; simp at hi
  | cons pr rest ih =>
    intro hnd k i j hi hj
    obtain ⟨hhead, htail⟩ := List.nodup_cons.mp hnd
    rcases List.mem_cons.mp hi with hieq | hi
    · rcases List.mem_cons.mp hj with hjeq | hj
      · rw [← hjeq] at hieq
        exact congrArg Prod.snd hieq
      · exfalso
        refine hhead ?_
        rw [show pr.1 = k from (congrArg Prod.fst hieq).symm ▸ rfl]
        · exact List.mem_map.mpr ⟨(k, j), hj, rfl⟩
    · rcases List.mem_cons.mp hj with hjeq | hj
      · exfalso
        refine hhead ?_
        rw [show pr.1 = k from (congrArg Prod.fst hjeq).symm ▸ rfl]
        · exact List.mem_map.mpr ⟨(k, i), hi, rfl⟩
      · exact ih htail k i j hi hj

theorem dropTo_decomp (p : String) : ∀ (l : List String) (s' : List String),
    dropTo p l = some s' →
    ∃ pre t, l = pre ++ s' ∧ p ∉ pre ∧ s' = p :: t := by
  intro l
  induction l with
  | nil => intro s' h; simp [dropTo] at h
  | cons x xs ih =>
    intro s' h
    by_cases hx : x = p
    · rw [dropTo, if_pos hx] at h
      rw [Option.some.injEq] at h
      refine ⟨[], xs, ?_, by simp, ?_⟩
      · rw [← h]
        rfl
      · rw [← h, hx]
    · rw [dropTo, if_neg hx] at h
      obtain ⟨pre, t, hl, hpre, hs⟩ := ih s' h
      refine ⟨x :: pre, t, by rw [List.cons_append, hl], ?_, hs⟩
      intro hmem
      rcases List.mem_cons.mp hmem with heq | hmem
      · exact hx heq.symm
      · exact hpre hmem

theorem stack_split : ∀ (frames : List Frame) (root p : String)
    (pre t : List String),
    frames.map Frame.name ++ [root] = pre ++ p :: t →
    (p = root ∧ pre = frames.map Frame.name ∧ t = [])
    ∨ ∃ fpre fK ftail, frames = fpre ++ fK :: ftail
        ∧ fpre.map Frame.name = pre ∧ fK.name = p
        ∧ t = ftail.map Frame.name ++ [root] := by
  intro frames
  induction frames with
  | nil =>
    intro root p pre t h
    simp only [List.map_nil, List.nil_append] at h
    cases pre with
    | nil =>
      rw [List.nil_append] at h
      injection h with h1 h2
      exact Or.inl ⟨h1.symm, rfl, h2.symm⟩
    | cons q pre' =>
      rw [List.cons_append] at h
      injection h with h1 h2
      have := congrArg List.length h2
      simp at this
      omega
  | cons fr ftl ih =>
    intro root p pre t h
    cases pre with
    | nil =>
      simp only [List.nil_append] at h
      rw [List.map_cons, List.cons_append] at h
      have h1 : fr.name = p := by
        have := congrArg (List.head? ·) h
        simpa using this
      have h2 : ftl.map Frame.name ++ [root] = t := by
        have := congrArg (List.tail ·) h
        simpa using this
      exact Or.inr ⟨[], fr, ftl, rfl, rfl, h1, h2.symm⟩
    | cons q pre' =>
      rw [List.map_cons, List.cons_append, List.cons_append] at h
      have hq : fr.name = q := by
        have := congrArg (List.head? ·) h
        simpa using this
      have h2 : ftl.map Frame.name ++ [root] = pre' ++ p :: t := by
        have := congrArg (List.tail ·) h
        simpa using this
      rcases ih root p pre' t h2 with ⟨e1, e2, e3⟩ | ⟨fpre, fK, ftail, f1, f2, f3, f4⟩
      · exact Or.inl ⟨e1, by rw [List.map_cons, ← e2, hq], e3⟩
      · exact Or.inr ⟨fr :: fpre, fK, ftail, by rw [f1, List.cons_append],
          by rw [List.map_cons, f2, hq], f3, f4⟩

theorem frChain_frames_sound (A : List BNode) (R : List Nat)
    (P : List FlatItem) :
    ∀ (frames : List Frame) (above : Option Nat) (acc : List FlatItem),
    frChain A R P above acc frames →
    ∀ fr ∈ frames, ∃ nd, A[fr.idx]? = some nd ∧ idOf nd = some fr.name := by
  intro frames
  induction frames with
  | nil => intro above acc _ fr hfr; simp at hfr
  | cons f0 rest ih =>
    intro above acc h fr hfr
    have hstep : ∃ nd, A[f0.idx]? = some nd ∧ idOf nd = some f0.name ∧
        frChain A R P (some f0.idx) (flatOf nd :: (f0.closed ++ acc)) rest := by
      cases above with
      | none =>
        rw [frChain_cons_none] at h
        obtain ⟨nd, h1, h2, _, h4⟩ := h
        exact ⟨nd, h1, h2, h4⟩
      | some c =>
        rw [frChain_cons_some] at h
        obtain ⟨nd, h1, h2, _, h4⟩ := h
        exact ⟨nd, h1, h2, h4⟩
    obtain ⟨nd, h1, h2, h4⟩ := hstep
    rcases List.mem_cons.mp hfr with heq | hfr
    · exact heq ▸ ⟨nd, h1, h2⟩
    · exact ih (some f0.idx) _ h4 fr hfr

theorem arena_get_cases (A : List BNode) (x : BNode) (i : Nat) (nd : BNode)
    (h : (A ++ [x])[i]? = some nd) :
    (i < A.length ∧ A[i]? = some nd) ∨ (i = A.length ∧ nd = x) := by
  by_cases hi : i < A.length
  · left
    refine ⟨hi, ?_⟩
    rw [← List.getElem?_append_left hi]
    exact h
  · right
    have hb := getElem?_bound h
    simp at hb
    have hieq : i = A.length := by omega
    subst hieq
    rw [List.getElem?_concat_length] at h
    exact ⟨rfl, (Option.some.injEq _ _ ▸ h).symm⟩

theorem GB_append (A : List BNode) (it : FlatItem) (hGB : GB A) :
    GB (A ++ [nodeOf it]) := by
  intro i nd hnd c hc
  simp only [List.length_append, List.length_cons, List.length_nil]
  rcases arena_get_cases A (nodeOf it) i nd hnd with ⟨hi, hold⟩ | ⟨hi, hx⟩
  · have := hGB i nd hold c hc
    omega
  · rw [hx, childrenOf_nodeOf] at hc
    simp at hc

theorem GB_attach (A : List BNode) (it : FlatItem) (j : Nat) (nd : BNode)
    (hGB : GB A) (hnd : A[j]? = some nd) :
    GB ((A ++ [nodeOf it]).set j (nd.addChild A.length)) := by
  have hj : j < A.length := getElem?_bound hnd
  intro i nd' hnd' c hc
  simp only [List.length_set, List.length_append, List.length_cons,
    List.length_nil]
  by_cases hij : i = j
  · subst hij
    rw [List.getElem?_set_self (by simp; omega)] at hnd'
    rw [Option.some.injEq] at hnd'
    subst hnd'
    cases nd with
    | comment cid cp cb cs =>
      have hch : (BNode.comment cid cp cb cs).addChild A.length
          = .comment cid cp cb (cs ++ [A.length]) := rfl
      rw [hch] at hc
      have hc2 : c ∈ cs ++ [A.length] := hc
      rcases List.mem_append.mp hc2 with hc3 | hc3
      · have := hGB i _ hnd c hc3
        omega
      · simp at hc3
        omega
    | more mp mc mn =>
      have : (BNode.more mp mc mn).addChild A.length = .more mp mc mn := rfl
      rw [this] at hc
      have hc2 : c ∈ ([] : List Nat) := hc
      simp at hc2
  · rw [List.getElem?_set_ne (Ne.symm hij)] at hnd'
    rcases arena_get_cases A (nodeOf it) i nd' hnd' with ⟨hi, hold⟩ | ⟨hi, hx⟩
    · have := hGB i nd' hold c hc
      omega
    · rw [hx, childrenOf_nodeOf] at hc
      simp at hc

theorem step_root_eq (root : String) (st : BuildState) (it : FlatItem)
    (h : it.parentOf = root) :
    step root st it = { st with
      arena := st.arena ++ [nodeOf it],
      rootChildren := st.rootChildren ++ [st.arena.length],
      index :=
        match it with
        | .comment i _ _ => st.index ++ [(i, st.arena.length)]
        | .more _ _ _ => st.index } := by
  simp only [step, if_pos h]
  cases it <;> rfl

theorem step_attach_eq (root : String) (st : BuildState) (it : FlatItem)
    (j : Nat) (h : it.parentOf ≠ root)
    (hl : lookupId st.index it.parentOf = some j) :
    step root st it = attachNew st j it := by
  simp only [step, if_neg h, hl]

theorem attachNew_eq (st : BuildState) (j : Nat) (it : FlatItem) (nd : BNode)
    (hnd : st.arena[j]? = some nd) :
    attachNew st j it = { st with
      arena := (st.arena ++ [nodeOf it]).set j (nd.addChild st.arena.length),
      index :=
        match it with
        | .comment i _ _ => st.index ++ [(i, st.arena.length)]
        | .more _ _ _ => st.index } := by
  have hget : (st.arena ++ [nodeOf it])[j]? = some nd := by
    rw [List.getElem?_append_left (getElem?_bound hnd)]
    exact hnd
  simp only [attachNew, hget]

theorem stepInv_root (root : String) (st : BuildState) (frames : List Frame)
    (P : List FlatItem) (it : FlatItem)
    (hInv : Inv root st frames P)
    (hp : it.parentOf = root)
    (hfresh : ∀ cid p b, it = .comment cid p b →
      cid ∉ keysOf st ∧ cid ≠ root) :
    ∃ frames2, Inv root (step root st it) frames2 (P ++ [it])
      ∧ frames2.map Frame.name
        = (match it with
           | .comment cid _ _ => [cid]
           | .more _ _ _ => [])
      ∧ keysOf (step root st it) = keysOf st ++ commentIds [it] := by
  obtain ⟨hpend, hGB, hRb, hch, hMa, hMb, hNodup, hroot⟩ := hInv
  have hchE : frChain st.arena st.rootChildren P none [] [] :=
    frChain_pop_all st.arena _ P hGB frames.length frames (le_refl _) hch
  rw [step_root_eq root st it hp]
  cases it with
  | comment cid cpar cbody =>
    dsimp only
    obtain ⟨hc1, hc2⟩ := hfresh cid cpar cbody rfl
    refine ⟨[⟨cid, st.arena.length, []⟩], ⟨hpend, ?_, ?_, ?_, ?_, ?_, ?_, ?_⟩,
      rfl, ?_⟩
    · exact GB_append st.arena _ hGB
    · intro r hr
      simp only [List.length_append, List.length_cons, List.length_nil]
      rcases List.mem_append.mp hr with hr | hr
      · have := hRb r hr
        omega
      · simp at hr
        omega
    · exact frChain_attach_root_comment st.arena st.rootChildren P
        cid cpar cbody hchE
    · intro pr hpr
      rcases List.mem_append.mp hpr with hpr | hpr
      · obtain ⟨nd, hnd, hid⟩ := hMa pr hpr
        exact ⟨nd, by
          rw [List.getElem?_append_left (getElem?_bound hnd)]; exact hnd, hid⟩
      · simp at hpr
        rw [hpr]
        exact ⟨nodeOf (.comment cid cpar cbody),
          List.getElem?_concat_length _ _, rfl⟩
    · intro i nd s hnd hid
      rcases arena_get_cases st.arena _ i nd hnd with ⟨hi, hold⟩ | ⟨hi, hx⟩
      · exact List.mem_append_left _ (hMb i nd s hold hid)
      · subst hi
        rw [hx] at hid
        have : s = cid := by
          simp [nodeOf, idOf] at hid
          exact hid.symm
        subst this
        exact List.mem_append_right _ (by simp)
    · show ((st.index ++ [(cid, st.arena.length)]).map Prod.fst).Nodup
      rw [List.map_append]
      rw [List.nodup_append]
      refine ⟨hNodup, List.nodup_singleton _, ?_⟩
      intro a ha hb
      simp at hb
      exact hc1 (hb ▸ ha)
    · show root ∉ (st.index ++ [(cid, st.arena.length)]).map Prod.fst
      rw [List.map_append]
      intro hmem
      rcases List.mem_append.mp hmem with h | h
      · exact hroot h
      · simp at h
        exact hc2 h.symm
    · show (st.index ++ [(cid, st.arena.length)]).map Prod.fst
        = keysOf st ++ commentIds [.comment cid cpar cbody]
      rw [List.map_append]
      rfl
  | more mp mc mn =>
    dsimp only
    refine ⟨[], ⟨hpend, ?_, ?_, ?_, ?_, ?_, hNodup, hroot⟩, rfl, ?_⟩
    · exact GB_append st.arena _ hGB
    · intro r hr
      simp only [List.length_append, List.length_cons, List.length_nil]
      rcases List.mem_append.mp hr with hr | hr
      · have := hRb r hr
        omega
      · simp at hr
        omega
    · exact frChain_attach_root_more st.arena st.rootChildren P mp mc mn hchE
    · intro pr hpr
      obtain ⟨nd, hnd, hid⟩ := hMa pr hpr
      exact ⟨nd, by
        rw [List.getElem?_append_left (getElem?_bound hnd)]; exact hnd, hid⟩
    · intro i nd s hnd hid
      rcases arena_get_cases st.arena _ i nd hnd with ⟨hi, hold⟩ | ⟨hi, hx⟩
      · exact hMb i nd s hold hid
      · subst hi
        rw [hx] at hid
        simp [nodeOf, idOf] at hid
    · show keysOf st = keysOf st ++ commentIds [.more mp mc mn]
      simp [commentIds]

theorem stepInv_frame (root : String) (st : BuildState)
    (P : List FlatItem) (it : FlatItem)
    (fpre : List Frame) (fK : Frame) (ftail : List Frame)
    (hInv : Inv root st (fpre ++ fK :: ftail) P)
    (hpK : fK.name = it.parentOf)
    (hfresh : ∀ cid p b, it = .comment cid p b →
      cid ∉ keysOf st ∧ cid ≠ root) :
    ∃ frames2, Inv root (step root st it) frames2 (P ++ [it])
      ∧ frames2.map Frame.name
        = (match it with
           | .comment cid _ _ => [cid]
           | .more _ _ _ => []) ++ fK.name :: ftail.map Frame.name
      ∧ keysOf (step root st it) = keysOf st ++ commentIds [it] := by
  obtain ⟨hpend, hGB, hRb, hch, hMa, hMb, hNodup, hroot⟩ := hInv
  have hKmem : fK ∈ fpre ++ fK :: ftail :=
    List.mem_append_right _ (List.mem_cons_self _ _)
  obtain ⟨ndK0, hndK0, hidK0⟩ :=
    frChain_frames_sound st.arena _ P _ none [] hch fK hKmem
  have hmemIdx : (fK.name, fK.idx) ∈ st.index :=
    hMb fK.idx ndK0 fK.name hndK0 hidK0
  have hp : it.parentOf ≠ root := by
    rw [← hpK]
    intro hcon
    exact hroot (hcon ▸ List.mem_map.mpr ⟨(fK.name, fK.idx), hmemIdx, rfl⟩)
  have hmemIdx2 : (it.parentOf, fK.idx) ∈ st.index := hpK ▸ hmemIdx
  have hlook : lookupId st.index it.parentOf = some fK.idx := by
    obtain ⟨j0, hj0⟩ := mem_lookupId st.index it.parentOf fK.idx hmemIdx2
    have hj0mem := lookupId_mem _ _ _ hj0
    have heq := entries_unique st.index hNodup it.parentOf j0 fK.idx
      hj0mem hmemIdx2
    rw [hj0, heq]
  obtain ⟨cl, hch2⟩ := frChain_pop_to st.arena _ P hGB fpre.length fpre fK
    ftail (le_refl _) hch
  rw [frChain_cons_none] at hch2
  obtain ⟨ndK, hndK, hidK, hsegK, hrecK⟩ := hch2
  dsimp only at hndK hidK hsegK hrecK
  have hjlt : fK.idx < st.arena.length := getElem?_bound hndK
  rw [step_attach_eq root st it fK.idx hp hlook, attachNew_eq st fK.idx it
    ndK hndK]
  have hidK' := (addChild_eqs ndK fK.name st.arena.length hidK).2.1
  cases it with
  | comment cid cpar cbody =>
    dsimp only
    obtain ⟨hc1, hc2⟩ := hfresh cid cpar cbody rfl
    refine ⟨⟨cid, st.arena.length, []⟩ :: ⟨fK.name, fK.idx, cl⟩ :: ftail,
      ⟨hpend, ?_, ?_, ?_, ?_, ?_, ?_, ?_⟩, rfl, ?_⟩
    · exact GB_attach st.arena _ fK.idx ndK hGB hndK
    · intro r hr
      simp only [List.length_set, List.length_append, List.length_cons,
        List.length_nil]
      have := hRb r hr
      omega
    · exact frChain_attach_frame_comment st.arena st.rootChildren P fK.name
        fK.idx cl ftail cid cpar cbody ndK hGB hndK hidK hsegK hrecK
    · intro pr hpr
      rcases List.mem_append.mp hpr with hpr | hpr
      · obtain ⟨nd, hnd, hid⟩ := hMa pr hpr
        by_cases hij : pr.2 = fK.idx
        · rw [hij] at hnd
          have hndeq : nd = ndK := by
            rw [hnd] at hndK
            exact Option.some_inj.mp hndK
          subst hndeq
          refine ⟨nd.addChild st.arena.length, ?_,
            (addChild_eqs nd pr.1 st.arena.length hid).2.1⟩
          rw [hij, List.getElem?_set_self (by simp; omega)]
        · refine ⟨nd, ?_, hid⟩
          rw [List.getElem?_set_ne (Ne.symm hij),
            List.getElem?_append_left (getElem?_bound hnd)]
          exact hnd
      · simp at hpr
        rw [hpr]
        refine ⟨nodeOf (.comment cid cpar cbody), ?_, rfl⟩
        rw [List.getElem?_set_ne (by omega : fK.idx ≠ st.arena.length),
          List.getElem?_concat_length]
    · intro i nd s hnd hid
      by_cases hij : i = fK.idx
      · subst hij
        rw [List.getElem?_set_self (by simp; omega)] at hnd
        rw [Option.some.injEq] at hnd
        subst hnd
        rw [hidK'] at hid
        rw [Option.some.injEq] at hid
        subst hid
        exact List.mem_append_left _ hmemIdx
      · rw [List.getElem?_set_ne (Ne.symm hij)] at hnd
        rcases arena_get_cases st.arena _ i nd hnd with ⟨hi, hold⟩ | ⟨hi, hx⟩
        · exact List.mem_append_left _ (hMb i nd s hold hid)
        · subst hi
          rw [hx] at hid
          have : s = cid := by
            simp [nodeOf, idOf] at hid
            exact hid.symm
          subst this
          exact List.mem_append_right _ (by simp)
    · show ((st.index ++ [(cid, st.arena.length)]).map Prod.fst).Nodup
      rw [List.map_append, List.nodup_append]
      refine ⟨hNodup, List.nodup_singleton _, ?_⟩
      intro a ha hb
      simp at hb
      exact hc1 (hb ▸ ha)
    · show root ∉ (st.index ++ [(cid, st.arena.length)]).map Prod.fst
      rw [List.map_append]
      intro hmem
      rcases List.mem_append.mp hmem with h | h
      · exact hroot h
      · simp at h
        exact hc2 h.symm
    · show (st.index ++ [(cid, st.arena.length)]).map Prod.fst
        = keysOf st ++ commentIds [.comment cid cpar cbody]
      rw [List.map_append]
      rfl
  | more mmp mmc mmn =>
    dsimp only
    refine ⟨⟨fK.name, fK.idx, cl ++ [.more mmp mmc mmn]⟩ :: ftail,
      ⟨hpend, ?_, ?_, ?_, ?_, ?_, hNodup, hroot⟩, rfl, ?_⟩
    · exact GB_attach st.arena _ fK.idx ndK hGB hndK
    · intro r hr
      simp only [List.length_set, List.length_append, List.length_cons,
        List.length_nil]
      have := hRb r hr
      omega
    · exact frChain_attach_frame_more st.arena st.rootChildren P fK.name
        fK.idx cl ftail mmp mmc mmn ndK hGB hndK hidK hsegK hrecK
    · intro pr hpr
      obtain ⟨nd, hnd, hid⟩ := hMa pr hpr
      by_cases hij : pr.2 = fK.idx
      · rw [hij] at hnd
        have hndeq : nd = ndK := by
          rw [hnd] at hndK
          exact Option.some_inj.mp hndK
        subst hndeq
        refine ⟨nd.addChild st.arena.length, ?_,
          (addChild_eqs nd pr.1 st.arena.length hid).2.1⟩
        rw [hij, List.getElem?_set_self (by simp; omega)]
      · refine ⟨nd, ?_, hid⟩
        rw [List.getElem?_set_ne (Ne.symm hij),
          List.getElem?_append_left (getElem?_bound hnd)]
        exact hnd
    · intro i nd s hnd hid
      by_cases hij : i = fK.idx
      · subst hij
        rw [List.getElem?_set_self (by simp; omega)] at hnd
        rw [Option.some.injEq] at hnd
        subst hnd
        rw [hidK'] at hid
        rw [Option.some.injEq] at hid
        subst hid
        exact hmemIdx
      · rw [List.getElem?_set_ne (Ne.symm hij)] at hnd
        rcases arena_get_cases st.arena _ i nd hnd with ⟨hi, hold⟩ | ⟨hi, hx⟩
        · exact hMb i nd s hold hid
        · subst hi
          rw [hx] at hid
          simp [nodeOf, idOf] at hid
    · show keysOf st = keysOf st ++ commentIds [.more mmp mmc mmn]
      simp [commentIds]

theorem commentIds_cons (it : FlatItem) (rest : List FlatItem) :
    commentIds (it :: rest) = commentIds [it] ++ commentIds rest := by
  cases it <;> simp [commentIds]

theorem stepInv (root : String) (st : BuildState) (frames : List Frame)
    (P : List FlatItem) (it : FlatItem) (stk2 : List String)
    (hInv : Inv root st frames P)
    (hstk : stackStep (frames.map Frame.name ++ [root]) it = some stk2)
    (hfresh : ∀ cid p b, it = .comment cid p b →
      cid ∉ keysOf st ∧ cid ≠ root) :
    ∃ frames2, Inv root (step root st it) frames2 (P ++ [it])
      ∧ frames2.map Frame.name ++ [root] = stk2
      ∧ keysOf (step root st it) = keysOf st ++ commentIds [it] := by
  unfold stackStep at hstk
  cases hdrop : dropTo it.parentOf (frames.map Frame.name ++ [root]) with
  | none =>
    rw [hdrop] at hstk
    exact absurd hstk (by simp)
  | some stkp =>
    rw [hdrop] at hstk
    obtain ⟨pre, t, hl, hpre, hs⟩ := dropTo_decomp it.parentOf _ stkp hdrop
    subst hs
    rcases stack_split frames root it.parentOf pre t hl with
      ⟨hpeq, hpre2, ht⟩ | ⟨fpre, fK, ftail, hsplit, hprenames, hfkname, ht⟩
    · obtain ⟨frames2, hInv2, hnames, hkeys⟩ :=
        stepInv_root root st frames P it hInv hpeq hfresh
      refine ⟨frames2, hInv2, ?_, hkeys⟩
      subst ht
      cases it with
      | comment cid cpar cbody =>
        simp only at hstk
        rw [Option.some.injEq] at hstk
        dsimp only [FlatItem.parentOf] at hstk hpeq
        rw [hnames, ← hstk]
        show [cid] ++ [root] = cid :: cpar :: []
        rw [hpeq]
        rfl
      | more mmp mmc mmn =>
        simp only at hstk
        rw [Option.some.injEq] at hstk
        dsimp only [FlatItem.parentOf] at hstk hpeq
        rw [hnames, ← hstk]
        show ([] : List String) ++ [root] = mmp :: []
        rw [hpeq]
        rfl
    · subst hsplit
      obtain ⟨frames2, hInv2, hnames, hkeys⟩ :=
        stepInv_frame root st P it fpre fK ftail hInv hfkname hfresh
      refine ⟨frames2, hInv2, ?_, hkeys⟩
      subst ht
      cases it with
      | comment cid cpar cbody =>
        simp only at hstk
        rw [Option.some.injEq] at hstk
        dsimp only [FlatItem.parentOf] at hstk hfkname
        rw [hnames, ← hstk]
        show ([cid] ++ fK.name :: List.map Frame.name ftail) ++ [root]
          = cid :: cpar :: (List.map Frame.name ftail ++ [root])
        rw [hfkname]
        simp
      | more mmp mmc mmn =>
        simp only at hstk
        rw [Option.some.injEq] at hstk
        dsimp only [FlatItem.parentOf] at hstk hfkname
        rw [hnames, ← hstk]
        show (([] : List Frame).map Frame.name
            ++ fK.name :: List.map Frame.name ftail) ++ [root]
          = mmp :: (List.map Frame.name ftail ++ [root])
        rw [hfkname]
        simp

theorem runPassInv (root : String) :
    ∀ (items : List FlatItem) (st : BuildState) (frames : List Frame)
      (P : List FlatItem),
    Inv root st frames P →
    (stackRun (frames.map Frame.name ++ [root]) items).isSome →
    (root :: (keysOf st ++ commentIds items)).Nodup →
    ∃ frames2, Inv root (runPass root st items) frames2 (P ++ items) := by
  intro items
  induction items with
  | nil =>
    intro st frames P hInv _ _
    exact ⟨frames, by simpa using hInv⟩
  | cons it rest ih =>
    intro st frames P hInv hrun hnodup
    unfold stackRun at hrun
    cases hss : stackStep (frames.map Frame.name ++ [root]) it with
    | none =>
      rw [hss] at hrun
      simp at hrun
    | some stk2 =>
      rw [hss] at hrun
      rw [commentIds_cons] at hnodup
      have hfresh : ∀ cid p b, it = .comment cid p b →
          cid ∉ keysOf st ∧ cid ≠ root := by
        intro cid p b heq
        subst heq
        have h2 : (root :: (keysOf st ++
            (cid :: commentIds rest))).Nodup := by
          simpa [commentIds] using hnodup
        obtain ⟨hr1, hr2⟩ := List.nodup_cons.mp h2
        obtain ⟨_, _, hdisj⟩ := List.nodup_append.mp hr2
        constructor
        · intro hmem
          exact hdisj hmem (List.mem_cons_self _ _)
        · intro heq2
          exact hr1 (heq2 ▸ List.mem_append_right _ (List.mem_cons_self _ _))
      obtain ⟨frames2, hInv2, hstk2, hkeys2⟩ :=
        stepInv root st frames P it stk2 hInv hss hfresh
      have hrun2 : (stackRun (frames2.map Frame.name ++ [root]) rest).isSome
          := by
        rw [hstk2]
        exact hrun
      have hnodup2 : (root :: (keysOf (step root st it) ++
          commentIds rest)).Nodup := by
        rw [hkeys2, List.append_assoc]
        exact hnodup
      obtain ⟨frames3, hInv3⟩ :=
        ih (step root st it) frames2 (P ++ [it]) hInv2 hrun2 hnodup2
      refine ⟨frames3, ?_⟩
      rw [show runPass root st (it :: rest)
        = runPass root (step root st it) rest from rfl]
      rw [show P ++ it :: rest = (P ++ [it]) ++ rest from by simp]
      exact hInv3

/-- Claim C2, amended as the counterexample `c2_counterexample` forces:
for every flat input sequence of Envelopes with pairwise-distinct comment
fullnames, none equal to the root sentinel, that is a depth-first
linearization — every item's parent is on the rightmost path of the
already-built tree when the item arrives (`stackRun` succeeds), which
strengthens the original "every child item appears after its parent" —
`build()` succeeds and produces a tree whose depth-first,
parent-before-children, sibling-order-preserving traversal equals the
input order restricted to non-stub items, with MoreComments stub
placeholders kept at their original sibling positions (the traversal
emits stubs in place, so it equals the full input order). -/
theorem c2_build_traversal_amended (root : String) (items : List FlatItem)
    (hs : (stackRun [root] items).isSome)
    (hn : (root :: commentIds items).Nodup) :
    ∃ t : CommentTree, build root items = .ok t ∧ traverse t = items := by
  have hInv0 : Inv root ⟨[], [], [], []⟩ [] [] := by
    refine ⟨rfl, ?_, ?_, ?_, ?_, ?_, ?_, ?_⟩
    · intro i nd hnd c _
      simp at hnd
    · intro r hr
      simp at hr
    · rw [frChain_nil_none]
      exact segOk_nil [] _
    · intro pr hpr
      simp at hpr
    · intro i nd s hnd _
      simp at hnd
    · simp [keysOf]
    · simp [keysOf]
  obtain ⟨frames2, hInv2⟩ := runPassInv root items ⟨[], [], [], []⟩ [] []
    hInv0 hs (by simpa [keysOf] using hn)
  obtain ⟨hpend, hGB, hRb, hch, _hMa, _hMb, _hNodup, _hroot⟩ := hInv2
  have hchE := frChain_pop_all (runPass root ⟨[], [], [], []⟩ items).arena
    _ _ hGB frames2.length frames2 (le_refl _) hch
  rw [frChain_nil_none] at hchE
  refine ⟨⟨(runPass root ⟨[], [], [], []⟩ items).arena,
    (runPass root ⟨[], [], [], []⟩ items).rootChildren⟩, ?_, ?_⟩
  · simp only [build]
    rw [hpend]
    rfl
  · have h2 := (hchE
      ((runPass root ⟨[], [], [], []⟩ items).arena.length + 1)
      (by omega)).1
    rw [List.nil_append] at h2
    exact h2

/-- Witness for the amended C2 at the spec's example scenario: the flat
input `[A (parent root), B (parent A), more (parent A, children C, D)]`
is a depth-first linearization with distinct fullnames; `build` succeeds
and the traversal of the tree equals the input. -/
theorem c2_build_traversal_amended_witness :
    (stackRun ["root"]
      [.comment "A" "root" "", .comment "B" "A" "",
        .more "A" ["C", "D"] 2]).isSome
    ∧ ("root" :: commentIds
      [.comment "A" "root" "", .comment "B" "A" "",
        .more "A" ["C", "D"] 2]).Nodup
    ∧ ∃ t : CommentTree,
      build "root"
        [.comment "A" "root" "", .comment "B" "A" "",
          .more "A" ["C", "D"] 2] = .ok t
      ∧ traverse t =
        [.comment "A" "root" "", .comment "B" "A" "",
          .more "A" ["C", "D"] 2] :=
  ⟨by decide, by decide,
    c2_build_traversal_amended "root"
      [.comment "A" "root" "", .comment "B" "A" "",
        .more "A" ["C", "D"] 2] (by decide) (by decide)⟩

/-- Counterexample to claim C2 as stated: in the input
`[A (parent root), B (parent root), C (parent A)]` every child appears
after its parent (and fullnames are pairwise distinct), yet the
depth-first traversal of the built tree is `[A, C, B]`, not the input
order `[A, B, C]` — `C` was attached under `A` while `B` is a later root
sibling, so document order moves `C` before `B`. -/
theorem c2_counterexample :
    childFollowsParent "root"
      [.comment "A" "root" "", .comment "B" "root" "",
        .comment "C" "A" ""] = true
    ∧ ("root" :: commentIds
      [.comment "A" "root" "", .comment "B" "root" "",
        .comment "C" "A" ""]).Nodup
    ∧ (build "root"
      [.comment "A" "root" "", .comment "B" "root" "",
        .comment "C" "A" ""]).toOption.map traverse ≠
      some [.comment "A" "root" "", .comment "B" "root" "",
        .comment "C" "A" ""] := by
  refine ⟨by decide, by decide, ?_⟩
  decide

end Tree

end NewRawr
